import Mathlib

/-!
Verification of the shepherd process-orchestration engine.

This file shallowly embeds the core of the repository in Lean:

* `internal/process/retry.go` — `nextBackoff`, `shouldRetry`;
* `internal/logging` ring buffer — `RingBuffer` with `WriteString`,
  `Lines`, `All`, `Len`;
* `internal/process/manager.go` dependency graph — forward/reverse
  adjacency, the DFS walkers behind `Dependents`, `Dependencies` and
  `StartOrder`'s closure collection, Kahn's algorithm, `StopOrder`;
* the sequential fragment of `ProcessManager` / `ManagedProcess` used by
  `StopProcess` and `RestartProcess`.

Modelling conventions:

* Go `float64` arithmetic is modelled over `ℚ`; the conversion
  `time.Duration(f)` (float to int64, truncation toward zero) is modelled
  by `ratTrunc`.  `rand.Float64()` is an arbitrary parameter `r` with
  `0 ≤ r < 1`.
* Go `int` is modelled by `ℤ` (or `ℕ` where the source only ever sees
  non-negative values), `time.Time`/`time.Duration` instants by `ℕ`.
* Go maps keyed by process name are modelled by association lists
  (`Catalog`) or by functions `String → _` updated pointwise.  Go's
  unspecified map-iteration order is fixed to catalog insertion order;
  all order-sensitive theorems below either do not depend on this choice
  or are stated about the deterministic model.
* The recursive DFS walkers in `manager.go` terminate in Go because each
  recursive call first inserts a fresh node into the visited set; the
  Lean embedding makes the same recursion structural with a fuel
  argument that provably exceeds the recursion depth.
-/

namespace Shepherd

/-! ## Data model: statuses and per-process state (`state.go`, `process.go`) -/

/-- Process status, from `internal/process/state.go`. -/
inductive Status where
  | stopped
  | starting
  | running
  | failed
  | retrying
  | stopping
deriving DecidableEq

/-- Snapshot of a managed process, from `internal/process/state.go`.
Times are abstract instants (`ℕ`, zero meaning Go's zero `time.Time`). -/
structure ProcessState where
  name : String
  status : Status
  pid : Nat
  startedAt : Nat
  stoppedAt : Nat
  retryCount : Int
  nextRetryAt : Nat
  lastError : String
  exitCode : Int
deriving DecidableEq

/-! ## Retry policy (`internal/process/retry.go`, `internal/config`) -/

/-- `config.RetryConfig`.  Backoffs are durations in nanoseconds, modelled
as rationals since the arithmetic on them in `retry.go` is `float64`. -/
structure RetryConfig where
  enabled : Bool
  maxAttempts : Int
  initialBackoff : ℚ
  maxBackoff : ℚ
  backoffMultiplier : ℚ
deriving DecidableEq

/-- Go's conversion of a `float64` to an integer type truncates toward
zero; this is `time.Duration(base)` at the end of `nextBackoff`. -/
def ratTrunc (q : ℚ) : ℤ :=
  if 0 ≤ q then ⌊q⌋ else ⌈q⌉

/-- `nextBackoff` from `retry.go`:
`base := initial * multiplier^attempt`, capped at `maxBackoff`, then
jittered by `base = base - jitter + r*2*jitter` with `jitter = base*0.1`
and `r` the value drawn from `rand.Float64()`, finally converted to a
`time.Duration` (truncation). -/
def nextBackoff (attempt : Nat) (cfg : RetryConfig) (r : ℚ) : ℤ :=
  let base0 : ℚ := cfg.initialBackoff * cfg.backoffMultiplier ^ attempt
  let base1 : ℚ := if cfg.maxBackoff < base0 then cfg.maxBackoff else base0
  let jitter : ℚ := base1 * (1 / 10)
  ratTrunc (base1 - jitter + r * 2 * jitter)

/-- The spec's `cap = min(initial · multiplier^attempt, max)`. -/
def backoffCap (attempt : Nat) (cfg : RetryConfig) : ℚ :=
  min (cfg.initialBackoff * cfg.backoffMultiplier ^ attempt) cfg.maxBackoff

/-- `shouldRetry` from `retry.go`. -/
def shouldRetry (attempt : Int) (cfg : RetryConfig) : Bool :=
  if !cfg.enabled then false
  else if cfg.maxAttempts = 0 then true
  else attempt < cfg.maxAttempts

/-! ## Ring log buffer (`internal/logging`) -/

def DefaultBufferSize : Nat := 1000

/-- `logging.RingBuffer`: the fixed-size line array with write position
and current count.  The Go slice `lines` has length `size` throughout. -/
structure RingBuffer where
  lines : List String
  size : Nat
  pos : Nat
  count : Nat
deriving DecidableEq

/-- `NewRingBuffer`: a non-positive requested size falls back to
`DefaultBufferSize` (Go's `size <= 0` check; sizes are `ℕ` here). -/
def NewRingBuffer (size : Nat) : RingBuffer :=
  let s := if size = 0 then DefaultBufferSize else size
  { lines := List.replicate s "", size := s, pos := 0, count := 0 }

/-- `RingBuffer.WriteString`: write at `pos`, advance `pos` modulo
`size`, bump `count` while below capacity. -/
def RingBuffer.WriteString (rb : RingBuffer) (line : String) : RingBuffer :=
  { rb with
    lines := rb.lines.set rb.pos line
    pos := (rb.pos + 1) % rb.size
    count := if rb.count < rb.size then rb.count + 1 else rb.count }

/-- `RingBuffer.Lines n`: the last `n` lines (all lines when `n ≤ 0` or
`n > count`), read from `start = (pos - n + size) % size`. -/
def RingBuffer.Lines (rb : RingBuffer) (n : Int) : List String :=
  let m : Nat := if n ≤ 0 ∨ rb.count < n then rb.count else n.toNat
  if m = 0 then []
  else (List.range m).map (fun i => rb.lines.getD ((rb.pos + rb.size - m + i) % rb.size) "")

/-- `RingBuffer.All` returns all lines in order. -/
def RingBuffer.All (rb : RingBuffer) : List String :=
  rb.Lines 0

/-- `RingBuffer.Len`. -/
def RingBuffer.Len (rb : RingBuffer) : Nat :=
  rb.count

/-! ## Dependency graph (`manager.go`, second half)

A catalog is the list of process definitions that matters to the graph:
process name paired with its `depends_on` list.  `NewDependencyGraph`
iterates `cfg.Processes` (a Go map, hence unique keys — theorems that
need it take a `Nodup` hypothesis on the keys) and stores forward
adjacency (`forward[name] = proc.DependsOn`) and reverse adjacency
(`reverse[dep] += name` for each listed dependency occurrence). -/

abbrev Catalog := List (String × List String)

/-- The node set `g.nodes`: all catalog keys. -/
def nodes (cat : Catalog) : List String :=
  cat.map Prod.fst

/-- Forward adjacency `g.forward[n]` (empty for unknown names, like a Go
map read miss). -/
def fwd (cat : Catalog) (n : String) : List String :=
  match cat with
  | [] => []
  | p :: rest => if p.1 = n then p.2 else fwd rest n

/-- Reverse adjacency `g.reverse[n]`: one occurrence of `p.1` for each
occurrence of `n` in `p.1`'s dependency list, in catalog order. -/
def radj (cat : Catalog) (n : String) : List String :=
  match cat with
  | [] => []
  | p :: rest => (p.2.filter (fun d => d = n)).map (fun _ => p.1) ++ radj rest n

/-- One forward dependency edge: `a` depends on `b`. -/
def Edge (cat : Catalog) (a b : String) : Prop :=
  b ∈ fwd cat a

instance (cat : Catalog) (a b : String) : Decidable (Edge cat a b) := by
  unfold Edge; infer_instance

/-- The shared recursive DFS of `manager.go` (`collectDeps` inside
`StartOrder`, and the `walk` closures of `Dependents` / `Dependencies`):
process a worklist `ls`; a node already in the visited list `req` is
skipped, otherwise it is appended and its adjacency is processed
recursively before the rest of the worklist.  The fuel argument only
makes the Go recursion (which terminates because every nested call first
inserts a fresh node) structural; all uses below supply fuel provably
exceeding the total number of worklist elements ever processed. -/
def visitM (f : String → List String) : Nat → List String → List String → List String
  | _, req, [] => req
  | 0, req, _ :: _ => req
  | k + 1, req, n :: ns =>
    if n ∈ req then visitM f k req ns
    else visitM f k (visitM f k (req ++ [n]) (f n)) ns

/-- Every name the catalog mentions (keys and dependency entries),
deduplicated: a universe containing everything any DFS can visit. -/
def catNames (cat : Catalog) : List String :=
  (cat.flatMap (fun p => p.1 :: p.2)).dedup

/-- Fuel sufficient for `visitM f _ [] ls` over a universe `U`: the
initial worklist plus, for each visitable name, one skip step and one
worklist contribution of its adjacency list. -/
def dfsFuel (f : String → List String) (U : List String) (ls : List String) : Nat :=
  ls.length + (U.map (fun u => 1 + (f u).length)).sum

/-- Fuel still needed by `visitM` once the names in `req` are visited:
one skip step plus one adjacency worklist per unvisited universe name. -/
def dfsPotential (f : String → List String) (U req : List String) : Nat :=
  ((U.filter (fun u => u ∉ req)).map (fun u => 1 + (f u).length)).sum

/-- `DependencyGraph.Dependents`: transitive dependents of `n` in DFS
preorder over reverse edges. -/
def Dependents (cat : Catalog) (n : String) : List String :=
  visitM (radj cat) (dfsFuel (radj cat) (catNames cat) (radj cat n)) [] (radj cat n)

/-- `DependencyGraph.Dependencies`: transitive dependencies of `n` in
DFS preorder over forward edges. -/
def Dependencies (cat : Catalog) (n : String) : List String :=
  visitM (fwd cat) (dfsFuel (fwd cat) (catNames cat) (fwd cat n)) [] (fwd cat n)

/-- The `required` set of `StartOrder`: targets closed under forward
edges, in DFS discovery order. -/
def collectRequired (cat : Catalog) (targets : List String) : List String :=
  visitM (fwd cat) (dfsFuel (fwd cat) (catNames cat) targets) [] targets

/-- Pointwise update of an in-degree map (a Go `map[string]int` write). -/
def updI (deg : String → Int) (x : String) (v : Int) : String → Int :=
  fun y => if y = x then v else deg y

/-- The initial in-degree map of `StartOrder`: for each required name,
the number of its dependency occurrences that are themselves required. -/
def inDeg0 (cat : Catalog) (R : List String) : String → Int :=
  fun n => ((fwd cat n).filter (fun d => d ∈ R)).length

/-- The body of Kahn's processing of one popped node in `StartOrder`:
walk its reverse adjacency; each required dependent has its in-degree
decremented and is enqueued when the degree reaches zero. -/
def kahnStep (R : List String) (st : (String → Int) × List String) (L : List String) :
    (String → Int) × List String :=
  L.foldl
    (fun acc dep =>
      if dep ∈ R then
        let d := acc.1 dep - 1
        (updI acc.1 dep d, if d = 0 then acc.2 ++ [dep] else acc.2)
      else acc)
    st

/-- Kahn's main loop of `StartOrder`: pop the queue head, append it to
the order, process its reverse adjacency.  Fuel bounds the number of
iterations; `2·|R| + 1` provably suffices (each name is enqueued at most
twice over: once as a seed and once when its degree first reaches 0). -/
def kahnLoop (cat : Catalog) (R : List String) :
    Nat → (String → Int) → List String → List String → List String
  | 0, _, _, order => order
  | _ + 1, _, [], order => order
  | k + 1, deg, node :: queue, order =>
    let st := kahnStep R (deg, queue) (radj cat node)
    kahnLoop cat R k st.1 st.2 (order ++ [node])

/-- `DependencyGraph.StartOrder`: reject the first unknown target, build
the required closure, then run Kahn's algorithm seeded with the
zero-degree required names; a short output means a cycle. -/
def StartOrder (cat : Catalog) (targets : List String) : Except String (List String) :=
  match targets.find? (fun t => !(t ∈ nodes cat : Bool)) with
  | some t => .error ("unknown process: " ++ t)
  | none =>
    let R := collectRequired cat targets
    let deg := inDeg0 cat R
    let queue := R.filter (fun n => deg n = 0)
    let order := kahnLoop cat R (2 * R.length + 1) deg queue []
    if order.length = R.length then .ok order
    else .error "dependency cycle detected"

/-- `DependencyGraph.StopOrder`: `StartOrder` reversed in place. -/
def StopOrder (cat : Catalog) (targets : List String) : Except String (List String) :=
  match StartOrder cat targets with
  | .error e => .error e
  | .ok order => .ok order.reverse

/-- The loop invariant of Kahn's algorithm in `StartOrder`, over the
required set `R`: emitted order and pending queue are disjoint
duplicate-free `R`-members; each degree counts the dependency
occurrences in `R` not yet emitted; the queue holds exactly the
unemitted zero-degree names; and every emitted name has all its
`R`-dependencies emitted before it. -/
def KahnInv (cat : Catalog) (R : List String) (deg : String → Int)
    (queue order : List String) : Prop :=
  (order ++ queue).Nodup ∧
  (∀ m ∈ order, m ∈ R) ∧
  (∀ m ∈ queue, m ∈ R) ∧
  (∀ m ∈ R, deg m
    = (((fwd cat m).filter (fun d => d ∈ R ∧ d ∉ order)).length : Int)) ∧
  (∀ m, m ∈ queue ↔ (m ∈ R ∧ m ∉ order ∧ deg m = 0)) ∧
  (∀ pre x suf, order = pre ++ x :: suf → ∀ d ∈ fwd cat x, d ∈ R → d ∈ pre)

/-! ## Managed process and the sequential manager fragment

`ManagedProcess.Start`, `ManagedProcess.Stop` and the manager's
`stopSingle` / `StopProcess` / `startSingle` / `RestartProcess` are
modelled as state transformers over a map from process name to
`ProcessState`.  The abstraction is sequential: a stopped child's waiter
goroutine completes within `Stop` (the code blocks on `done`), children
spawned during the call neither exit nor produce output during it, and
event emission / monitor goroutines are not modelled (no claim below is
about them).  Spawn outcomes and clock readings are parameters. -/

abbrev StateMap := String → ProcessState

/-- Pointwise map update (a write to `pm.processes[n]`'s state). -/
def updS (s : StateMap) (n : String) (st : ProcessState) : StateMap :=
  fun m => if m = n then st else s m

/-- `ManagedProcess.Start` (process.go).  Fails when already Running.
Otherwise the status passes through Starting; `spawnOk` tells whether
the child could be spawned (PTY or pipe fallback).  On success: record
PID and `started_at`, clear `stopped_at` / `last_error` / `exit_code`,
status Running.  On spawn failure: status Failed, record the error.
Returns the new state and the error, `none` meaning success. -/
def MPStart (spawnOk : Bool) (errMsg : String) (now pid : Nat) (st : ProcessState) :
    ProcessState × Option String :=
  if st.status = .running then (st, some ("process " ++ st.name ++ " is already running"))
  else if spawnOk then
    ({ st with
        status := .running
        pid := pid
        startedAt := now
        stoppedAt := 0
        lastError := ""
        exitCode := 0 }, none)
  else
    ({ st with status := .failed, lastError := errMsg },
      some ("starting process " ++ st.name ++ ": " ++ errMsg))

/-- `ManagedProcess.Stop` (process.go): a no-op unless Starting or
Running; otherwise status passes through Stopping, the process group is
signalled, and the waiter goroutine (`waitForExit`) finishes the
session: `stopped_at = now`, PID cleared, and since the status is
Stopping the final status is Stopped.  The child killed by SIGTERM or
SIGKILL reports no exit code to `exec.ExitError.ExitCode()`'s caller
beyond -1, recorded here.  `Stop` itself never returns an error. -/
def MPStop (now : Nat) (st : ProcessState) : ProcessState :=
  if st.status = .running ∨ st.status = .starting then
    { st with status := .stopped, pid := 0, stoppedAt := now, exitCode := -1 }
  else st

/-- `ManagedProcess.ResetRetryCount`. -/
def ResetRetryCount (st : ProcessState) : ProcessState :=
  { st with retryCount := 0, nextRetryAt := 0 }

/-- `ManagedProcess.SetRetryState`. -/
def SetRetryState (count : Int) (nextRetry : Nat) (st : ProcessState) : ProcessState :=
  { st with retryCount := count, nextRetryAt := nextRetry }

/-- `ProcessManager.stopSingle`: a Retrying process (no live child) is
just marked Stopped, cancelling the pending retry; otherwise delegate to
`ManagedProcess.Stop`.  Always succeeds. -/
def stopSingleM (now : Nat) (s : StateMap) (n : String) : StateMap :=
  let st := s n
  if st.status = .retrying then updS s n { st with status := .stopped }
  else updS s n (MPStop now st)

/-- The status test of `StopProcess`'s dependent loop (and of
`cascadeFailure` / `StopAll`): a live or retry-pending process. -/
def stopTriggered (st : ProcessState) : Prop :=
  st.status = .running ∨ st.status = .starting ∨ st.status = .retrying

instance (st : ProcessState) : Decidable (stopTriggered st) := by
  unfold stopTriggered; infer_instance

/-- One iteration of `StopProcess`'s dependent loop: read the current
state; stop the dependent (recording it in the trace) when it is
Running, Starting or Retrying. -/
def stopStep (now : Nat) (acc : StateMap × List String) (dep : String) :
    StateMap × List String :=
  if stopTriggered (acc.1 dep) then (stopSingleM now acc.1 dep, acc.2 ++ [dep]) else acc

/-- `ProcessManager.StopProcess`: walk `Dependents(n)` in order, stop
each dependent currently Running, Starting or Retrying, then stop the
target itself.  The returned list is the sequence of names on which
`stopSingle` was invoked (one emitted Stopped event each), in call
order. -/
def StopProcessM (cat : Catalog) (now : Nat) (s : StateMap) (n : String) :
    StateMap × List String :=
  let step := (Dependents cat n).foldl (stopStep now) (s, [])
  (stopSingleM now step.1 n, step.2 ++ [n])

/-- `ProcessManager.startSingle`: invoke `ManagedProcess.Start` and
report its error (monitor spawning and event emission are concurrent
effects outside this sequential fragment). -/
def startSingleM (spawn : String → Bool) (now : Nat) (pid : String → Nat)
    (s : StateMap) (n : String) : StateMap × Option String :=
  let r := MPStart (spawn n) "spawn failed" now (pid n) (s n)
  (updS s n r.1, r.2)

/-- One iteration of `RestartProcess`'s dependent loop: reset the
dependent's retry counter, then start it, swallowing its error. -/
def restartStep (spawn : String → Bool) (now : Nat) (pid : String → Nat)
    (acc : StateMap) (dep : String) : StateMap :=
  (startSingleM spawn now pid (updS acc dep (ResetRetryCount (acc dep))) dep).1

/-- `ProcessManager.RestartProcess`: snapshot the dependents currently
Running, Starting, Failed or Retrying; `StopProcess` the target; start
the target again; then reset each snapshotted dependent's retry counter
and start it, swallowing dependent start errors. -/
def RestartProcessM (cat : Catalog) (spawn : String → Bool) (now : Nat)
    (pid : String → Nat) (s : StateMap) (n : String) : StateMap × Option String :=
  let restartDeps := (Dependents cat n).filter
    (fun dep =>
      (s dep).status = .running ∨ (s dep).status = .starting ∨
      (s dep).status = .failed ∨ (s dep).status = .retrying)
  let s1 := (StopProcessM cat now s n).1
  match startSingleM spawn now pid s1 n with
  | (s2, some e) => (s2, some ("restarting " ++ n ++ ": " ++ e))
  | (s2, none) => (restartDeps.foldl (restartStep spawn now pid) s2, none)

/-! ## Specification-side notions used in theorem statements -/

/-- One reverse dependency edge: `b` depends on `a`. -/
def RevEdge (cat : Catalog) (a b : String) : Prop :=
  b ∈ radj cat a

instance (cat : Catalog) (a b : String) : Decidable (RevEdge cat a b) := by
  unfold RevEdge; infer_instance

/-- The dependency graph has no cycle (the spec's "Must be acyclic"). -/
def Acyclic (cat : Catalog) : Prop :=
  ∀ n, ¬ Relation.TransGen (Edge cat) n n

/-- Membership in the closure of `targets` under forward dependency
edges (the spec's "closure of `targets` under forward edges"). -/
def InClosure (cat : Catalog) (targets : List String) (x : String) : Prop :=
  ∃ t ∈ targets, Relation.ReflTransGen (Edge cat) t x

/-- Structural well-formedness of a ring buffer of capacity `c`: what
`NewRingBuffer` establishes and `WriteString` preserves. -/
def RingBuffer.WF (c : Nat) (rb : RingBuffer) : Prop :=
  rb.size = c ∧ rb.lines.length = c ∧ rb.pos < c ∧ rb.count ≤ c

/-! # Theorems

## Retry policy: claims C4, C5, C6 -/

/-- C4: for every attempt count `n ≥ 0` and every retry policy,
`should_retry(n, policy)` is `false` whenever the policy is disabled,
`true` for every `n` when the policy is enabled with `max_attempts = 0`,
and otherwise `true` exactly when `n < max_attempts`. -/
theorem C4_shouldRetry (n : Int) (cfg : RetryConfig) (hn : 0 ≤ n) :
    (cfg.enabled = false → shouldRetry n cfg = false) ∧
    (cfg.enabled = true → cfg.maxAttempts = 0 → shouldRetry n cfg = true) ∧
    (cfg.enabled = true → cfg.maxAttempts ≠ 0 →
      (shouldRetry n cfg = true ↔ n < cfg.maxAttempts)) := by
  refine ⟨fun h => ?_, fun h h0 => ?_, fun h h0 => ?_⟩
  · simp [shouldRetry, h]
  · simp [shouldRetry, h, h0]
  · simp [shouldRetry, h, h0, decide_eq_true_iff]

/-- Witness for C4 at `n = 1` and an enabled policy with three attempts. -/
theorem C4_shouldRetry_witness :
    shouldRetry 1 (RetryConfig.mk true 3 2 60 2) = true ↔ (1 : Int) < 3 :=
  ((C4_shouldRetry 1 (RetryConfig.mk true 3 2 60 2) (by norm_num)).2.2 rfl (by norm_num))

/-- The jittered value inside `nextBackoff` is the spec's `cap` times
the jitter factor `0.9 + r/5`. -/
theorem nextBackoff_eq (n : Nat) (cfg : RetryConfig) (r : ℚ) :
    nextBackoff n cfg r = ratTrunc (backoffCap n cfg * (9 / 10 + r / 5)) := by
  rcases lt_or_ge cfg.maxBackoff (cfg.initialBackoff * cfg.backoffMultiplier ^ n) with h | h
  · simp only [nextBackoff, backoffCap, if_pos h, min_eq_right h.le]
    exact congrArg ratTrunc (by ring)
  · simp only [nextBackoff, backoffCap, if_neg (not_lt.mpr h), min_eq_left h]
    exact congrArg ratTrunc (by ring)

/-- Under the data-model constraints the backoff cap is positive. -/
theorem backoffCap_pos (n : Nat) (cfg : RetryConfig)
    (h1 : 0 < cfg.initialBackoff) (h2 : cfg.initialBackoff ≤ cfg.maxBackoff)
    (h3 : 1 ≤ cfg.backoffMultiplier) : 0 < backoffCap n cfg :=
  lt_min (mul_pos h1 (pow_pos (lt_of_lt_of_le one_pos h3) n)) (lt_of_lt_of_le h1 h2)

/-- C5 counterexample: with the degenerate (but constraint-satisfying)
policy `initial = max = 1` (one nanosecond), `multiplier = 1`, attempt
`0` and jitter draw `r = 0`, the code computes `0.9` and the conversion
to `time.Duration` truncates it to `0`, which is below `0.9 · cap`. -/
theorem C5_nextBackoff_interval_cex :
    (0 < (RetryConfig.mk true 3 1 1 1).initialBackoff ∧
      (RetryConfig.mk true 3 1 1 1).initialBackoff ≤ (RetryConfig.mk true 3 1 1 1).maxBackoff ∧
      1 ≤ (RetryConfig.mk true 3 1 1 1).backoffMultiplier ∧ (0 : ℚ) ≤ 0 ∧ (0 : ℚ) < 1) ∧
    nextBackoff 0 (RetryConfig.mk true 3 1 1 1) 0 = 0 ∧
    ¬((9 / 10 : ℚ) * backoffCap 0 (RetryConfig.mk true 3 1 1 1) ≤
        ((nextBackoff 0 (RetryConfig.mk true 3 1 1 1) 0 : ℤ) : ℚ)) := by
  have hv : nextBackoff 0 (RetryConfig.mk true 3 1 1 1) 0 = 0 := by
    norm_num [nextBackoff, ratTrunc]
  refine ⟨by norm_num, hv, ?_⟩
  rw [hv]
  norm_num [backoffCap]

/-- C5 (amended): for every attempt, every policy satisfying the
data-model constraints and every jitter draw `r ∈ [0, 1)`, the returned
duration lies in `(0.9·cap − 1ns, 1.1·cap]` where
`cap = min(initial·multiplier^n, max)`: the `float64` value lies in
`[0.9·cap, 1.1·cap)` and the conversion to a whole-nanosecond
`time.Duration` truncates, undershooting by less than 1 ns. -/
theorem C5_nextBackoff_interval (n : Nat) (cfg : RetryConfig) (r : ℚ)
    (h1 : 0 < cfg.initialBackoff) (h2 : cfg.initialBackoff ≤ cfg.maxBackoff)
    (h3 : 1 ≤ cfg.backoffMultiplier) (hr0 : 0 ≤ r) (hr1 : r < 1) :
    (9 / 10 : ℚ) * backoffCap n cfg - 1 < ((nextBackoff n cfg r : ℤ) : ℚ) ∧
    ((nextBackoff n cfg r : ℤ) : ℚ) ≤ (11 / 10 : ℚ) * backoffCap n cfg := by
  have hcap : 0 < backoffCap n cfg := backoffCap_pos n cfg h1 h2 h3
  rw [nextBackoff_eq]
  set v : ℚ := backoffCap n cfg * (9 / 10 + r / 5) with hv
  have hlo : (9 / 10 : ℚ) * backoffCap n cfg ≤ v := by
    rw [hv]; nlinarith
  have hhi : v ≤ (11 / 10 : ℚ) * backoffCap n cfg := by
    rw [hv]; nlinarith
  have hv0 : 0 ≤ v := le_trans (by positivity) hlo
  have htr : ratTrunc v = ⌊v⌋ := by unfold ratTrunc; rw [if_pos hv0]
  rw [htr]
  constructor
  · have := Int.sub_one_lt_floor v
    linarith
  · have := Int.floor_le v
    linarith

/-- Witness for the amended C5 at a policy with `initial = 100`,
`max = 200`, `multiplier = 3/2`, attempt `1`, jitter draw `1/2`. -/
theorem C5_nextBackoff_interval_witness :
    (9 / 10 : ℚ) * backoffCap 1 (RetryConfig.mk true 3 100 200 (3 / 2)) - 1 <
      ((nextBackoff 1 (RetryConfig.mk true 3 100 200 (3 / 2)) (1 / 2) : ℤ) : ℚ) ∧
    ((nextBackoff 1 (RetryConfig.mk true 3 100 200 (3 / 2)) (1 / 2) : ℤ) : ℚ) ≤
      (11 / 10 : ℚ) * backoffCap 1 (RetryConfig.mk true 3 100 200 (3 / 2)) :=
  C5_nextBackoff_interval 1 (RetryConfig.mk true 3 100 200 (3 / 2)) (1 / 2)
    (by norm_num) (by norm_num) (by norm_num) (by norm_num) (by norm_num)

/-- C6 counterexample: the policy `initial = 1ns`, `max = 2ns`,
`multiplier = 1` satisfies every data-model constraint, yet at attempt
`0` with jitter draw `r = 0` the code returns a duration of `0`, so
`next_backoff` does return a non-positive value. -/
theorem C6_nextBackoff_positive_cex :
    (0 < (RetryConfig.mk true 0 1 2 1).initialBackoff ∧
      (RetryConfig.mk true 0 1 2 1).initialBackoff ≤ (RetryConfig.mk true 0 1 2 1).maxBackoff ∧
      1 ≤ (RetryConfig.mk true 0 1 2 1).backoffMultiplier ∧ (0 : ℚ) ≤ 0 ∧ (0 : ℚ) < 1) ∧
    ¬(0 < nextBackoff 0 (RetryConfig.mk true 0 1 2 1) 0) := by
  have hv : nextBackoff 0 (RetryConfig.mk true 0 1 2 1) 0 = 0 := by
    norm_num [nextBackoff, ratTrunc]
  exact ⟨by norm_num, by rw [hv]; norm_num⟩

/-- C6 (amended): under the data-model constraints `next_backoff` never
returns a negative duration, and returns a strictly positive one
whenever `0.9 · cap` is at least one nanosecond (in particular for every
policy with `initial_backoff ≥ 2ns`); only sub-2ns caps can be
truncated to a zero duration. -/
theorem C6_nextBackoff_positive (n : Nat) (cfg : RetryConfig) (r : ℚ)
    (h1 : 0 < cfg.initialBackoff) (h2 : cfg.initialBackoff ≤ cfg.maxBackoff)
    (h3 : 1 ≤ cfg.backoffMultiplier) (hr0 : 0 ≤ r) (hr1 : r < 1) :
    0 ≤ nextBackoff n cfg r ∧
    (1 ≤ (9 / 10 : ℚ) * backoffCap n cfg → 0 < nextBackoff n cfg r) := by
  have hcap : 0 < backoffCap n cfg := backoffCap_pos n cfg h1 h2 h3
  rw [nextBackoff_eq]
  set v : ℚ := backoffCap n cfg * (9 / 10 + r / 5) with hv
  have hlo : (9 / 10 : ℚ) * backoffCap n cfg ≤ v := by
    rw [hv]; nlinarith
  have hv0 : 0 ≤ v := le_trans (by positivity) hlo
  have htr : ratTrunc v = ⌊v⌋ := by unfold ratTrunc; rw [if_pos hv0]
  rw [htr]
  refine ⟨Int.floor_nonneg.mpr hv0, fun hone => ?_⟩
  have h1v : (1 : ℚ) ≤ v := le_trans hone hlo
  have hfl : (1 : ℤ) ≤ ⌊v⌋ := Int.le_floor.mpr (by exact_mod_cast h1v)
  omega

/-- Witness for the amended C6 at the default-like policy
`initial = 2s`, `max = 60s`, `multiplier = 2` (in nanoseconds),
attempt `2`, jitter draw `1/3`. -/
theorem C6_nextBackoff_positive_witness :
    0 ≤ nextBackoff 2 (RetryConfig.mk true 3 2000000000 60000000000 2) (1 / 3) ∧
    (1 ≤ (9 / 10 : ℚ) * backoffCap 2 (RetryConfig.mk true 3 2000000000 60000000000 2) →
      0 < nextBackoff 2 (RetryConfig.mk true 3 2000000000 60000000000 2) (1 / 3)) :=
  C6_nextBackoff_positive 2 (RetryConfig.mk true 3 2000000000 60000000000 2) (1 / 3)
    (by norm_num) (by norm_num) (by norm_num) (by norm_num) (by norm_num)

/-! ## Managed-process frame effect: claim C10 -/

/-- C10: on every successful spawn, `ManagedProcess.Start` clears
`stopped_at`, `last_error` and `exit_code`, sets status to Running and
records the PID and `started_at`, but leaves `retry_count` and
`next_retry_at` exactly as they were before the call; the explicit
`ResetRetryCount` setter is what zeroes them. -/
theorem C10_MPStart_frame (spawnOk : Bool) (errMsg : String) (now pid : Nat)
    (st : ProcessState) (h : (MPStart spawnOk errMsg now pid st).2 = none) :
    ((MPStart spawnOk errMsg now pid st).1.status = .running ∧
      (MPStart spawnOk errMsg now pid st).1.pid = pid ∧
      (MPStart spawnOk errMsg now pid st).1.startedAt = now ∧
      (MPStart spawnOk errMsg now pid st).1.stoppedAt = 0 ∧
      (MPStart spawnOk errMsg now pid st).1.lastError = "" ∧
      (MPStart spawnOk errMsg now pid st).1.exitCode = 0) ∧
    (MPStart spawnOk errMsg now pid st).1.retryCount = st.retryCount ∧
    (MPStart spawnOk errMsg now pid st).1.nextRetryAt = st.nextRetryAt ∧
    (ResetRetryCount st).retryCount = 0 ∧ (ResetRetryCount st).nextRetryAt = 0 := by
  by_cases h1 : st.status = Status.running
  · simp [MPStart, h1] at h
  · cases spawnOk with
    | true => simp [MPStart, h1, ResetRetryCount]
    | false => simp [MPStart, h1] at h

/-- Witness for C10: starting a Stopped process that had accumulated
retry state (count 7) succeeds and keeps that retry state. -/
theorem C10_MPStart_frame_witness :
    ((MPStart true "spawn failed" 5 42 (ProcessState.mk "A" .stopped 0 0 3 7 9 "boom" 2)).1.status =
        .running ∧
      (MPStart true "spawn failed" 5 42 (ProcessState.mk "A" .stopped 0 0 3 7 9 "boom" 2)).1.pid = 42 ∧
      (MPStart true "spawn failed" 5 42 (ProcessState.mk "A" .stopped 0 0 3 7 9 "boom" 2)).1.startedAt = 5 ∧
      (MPStart true "spawn failed" 5 42 (ProcessState.mk "A" .stopped 0 0 3 7 9 "boom" 2)).1.stoppedAt = 0 ∧
      (MPStart true "spawn failed" 5 42 (ProcessState.mk "A" .stopped 0 0 3 7 9 "boom" 2)).1.lastError = "" ∧
      (MPStart true "spawn failed" 5 42 (ProcessState.mk "A" .stopped 0 0 3 7 9 "boom" 2)).1.exitCode = 0) ∧
    (MPStart true "spawn failed" 5 42 (ProcessState.mk "A" .stopped 0 0 3 7 9 "boom" 2)).1.retryCount =
      (ProcessState.mk "A" .stopped 0 0 3 7 9 "boom" 2).retryCount ∧
    (MPStart true "spawn failed" 5 42 (ProcessState.mk "A" .stopped 0 0 3 7 9 "boom" 2)).1.nextRetryAt =
      (ProcessState.mk "A" .stopped 0 0 3 7 9 "boom" 2).nextRetryAt ∧
    (ResetRetryCount (ProcessState.mk "A" .stopped 0 0 3 7 9 "boom" 2)).retryCount = 0 ∧
    (ResetRetryCount (ProcessState.mk "A" .stopped 0 0 3 7 9 "boom" 2)).nextRetryAt = 0 :=
  C10_MPStart_frame true "spawn failed" 5 42 (ProcessState.mk "A" .stopped 0 0 3 7 9 "boom" 2) rfl

/-! ## Ring buffer: claim C8 -/

/-- A fresh buffer of positive capacity is well formed. -/
theorem RingBuffer.wf_new (c : Nat) (hc : c ≠ 0) : (NewRingBuffer c).WF c := by
  unfold NewRingBuffer RingBuffer.WF
  simp [hc, Nat.pos_of_ne_zero hc]

/-- `WriteString` preserves well-formedness. -/
theorem RingBuffer.wf_write {c : Nat} {rb : RingBuffer} (h : rb.WF c) (w : String) :
    (rb.WriteString w).WF c := by
  obtain ⟨h1, h2, h3, h4⟩ := h
  refine ⟨h1, ?_, ?_, ?_⟩
  · simpa [RingBuffer.WriteString] using h2
  · simp only [RingBuffer.WriteString, h1]
    exact Nat.mod_lt _ (by omega)
  · simp only [RingBuffer.WriteString, h1]
    split <;> omega

/-- On a well-formed buffer, `All` reads `count` consecutive slots
ending just before the write position. -/
theorem RingBuffer.all_eq {c : Nat} {rb : RingBuffer} (h : rb.WF c) :
    rb.All = (List.range rb.count).map
      (fun i => rb.lines.getD ((rb.pos + c - rb.count + i) % c) "") := by
  obtain ⟨h1, h2, h3, h4⟩ := h
  unfold RingBuffer.All RingBuffer.Lines
  rw [if_pos (Or.inl le_rfl)]
  by_cases h0 : rb.count = 0
  · simp [h0]
  · rw [if_neg h0, h1]

/-- Slot arithmetic: adding a nonzero offset below the modulus moves a
reduced index. -/
theorem mod_add_ne_self {p d c : Nat} (hp : p < c) (h0 : 0 < d) (hd : d < c) :
    (p + d) % c ≠ p := by
  rcases lt_or_ge (p + d) c with h | h
  · rw [Nat.mod_eq_of_lt h]; omega
  · have h2 : p + d - c < c := by omega
    rw [Nat.mod_eq_sub_mod h, Nat.mod_eq_of_lt h2]; omega

/-- The write step, observed through `All`: while below capacity a write
appends; at capacity it also evicts the oldest line. -/
theorem RingBuffer.all_write {c : Nat} {rb : RingBuffer} (hc : 0 < c) (h : rb.WF c)
    (w : String) :
    (rb.WriteString w).All =
      if rb.count < c then rb.All ++ [w] else rb.All.tail ++ [w] := by
  obtain ⟨h1, h2, h3, h4⟩ := h
  have hw := RingBuffer.wf_write ⟨h1, h2, h3, h4⟩ w
  rw [RingBuffer.all_eq hw, RingBuffer.all_eq ⟨h1, h2, h3, h4⟩]
  have hlines : (rb.WriteString w).lines = rb.lines.set rb.pos w := rfl
  have hpos : (rb.WriteString w).pos = (rb.pos + 1) % c := by
    simp [RingBuffer.WriteString, h1]
  by_cases hfull : rb.count < c
  · have hcount : (rb.WriteString w).count = rb.count + 1 := by
      simp [RingBuffer.WriteString, h1, hfull]
    rw [if_pos hfull]
    simp only [hcount, hpos, hlines]
    rw [List.range_succ, List.map_append]
    congr 1
    · apply List.map_congr_left
      intro i hi
      have hi2 : i < rb.count := List.mem_range.mp hi
      have harg : ((rb.pos + 1) % c + c - (rb.count + 1) + i) % c
          = (rb.pos + c - rb.count + i) % c := by
        have e1 : (rb.pos + 1) % c + c - (rb.count + 1) + i
            = (rb.pos + 1) % c + (c - rb.count - 1 + i) := by
          have := Nat.mod_lt (rb.pos + 1) (show 0 < c by omega)
          omega
        rw [e1, Nat.mod_add_mod]
        congr 1
        omega
      rw [harg]
      have hne : (rb.pos + c - rb.count + i) % c ≠ rb.pos := by
        have e2 : rb.pos + c - rb.count + i = rb.pos + (c - rb.count + i) := by omega
        rw [e2]
        exact mod_add_ne_self h3 (by omega) (by omega)
      simp [List.getD_eq_getElem?_getD, List.getElem?_set_ne (Ne.symm hne)]
    · simp only [List.map_cons, List.map_nil]
      have harg : ((rb.pos + 1) % c + c - (rb.count + 1) + rb.count) % c = rb.pos := by
        have e1 : (rb.pos + 1) % c + c - (rb.count + 1) + rb.count
            = (rb.pos + 1) % c + (c - 1) := by
          have := Nat.mod_lt (rb.pos + 1) (show 0 < c by omega)
          omega
        rw [e1, Nat.mod_add_mod]
        have e2 : rb.pos + 1 + (c - 1) = rb.pos + c := by omega
        rw [e2, Nat.add_mod_right, Nat.mod_eq_of_lt h3]
      rw [harg]
      have : (rb.lines.set rb.pos w).getD rb.pos "" = w := by
        simp [List.getD_eq_getElem?_getD, List.getElem?_set_eq_of_lt w (h2 ▸ h3)]
      rw [this]
  · have hcc : rb.count = c := by omega
    have hcount : (rb.WriteString w).count = rb.count := by
      simp [RingBuffer.WriteString, h1, hfull]
    rw [if_neg hfull]
    simp only [hcount, hpos, hlines]
    have hsplit : List.range rb.count = List.range (c - 1) ++ [c - 1] := by
      rw [hcc]
      conv_lhs => rw [show c = (c - 1) + 1 by omega]
      exact List.range_succ (c - 1)
    have hsplit2 : List.range rb.count = 0 :: List.map (fun i => i + 1) (List.range (c - 1)) := by
      rw [hcc]
      conv_lhs => rw [show c = (c - 1) + 1 by omega]
      rw [List.range_succ_eq_map]
    conv_lhs => rw [hsplit, List.map_append]
    conv_rhs => rw [hsplit2, List.map_cons, List.tail_cons, List.map_map]
    congr 1
    · apply List.map_congr_left
      intro i hi
      have hi2 : i < c - 1 := List.mem_range.mp hi
      simp only [Function.comp_apply]
      have harg : ((rb.pos + 1) % c + c - rb.count + i) % c = (rb.pos + (1 + i)) % c := by
        have e1 : (rb.pos + 1) % c + c - rb.count + i = (rb.pos + 1) % c + i := by
          have := Nat.mod_lt (rb.pos + 1) (show 0 < c by omega)
          omega
        rw [e1, Nat.mod_add_mod]
        congr 1
        omega
      have harg2 : (rb.pos + c - rb.count + (i + 1)) % c = (rb.pos + (1 + i)) % c := by
        congr 1
        omega
      rw [harg, harg2]
      have hne : (rb.pos + (1 + i)) % c ≠ rb.pos :=
        mod_add_ne_self h3 (by omega) (by omega)
      simp [List.getD_eq_getElem?_getD, List.getElem?_set_ne (Ne.symm hne)]
    · simp only [List.map_cons, List.map_nil]
      have harg : ((rb.pos + 1) % c + c - rb.count + (c - 1)) % c = rb.pos := by
        have e1 : (rb.pos + 1) % c + c - rb.count + (c - 1) = (rb.pos + 1) % c + (c - 1) := by
          have := Nat.mod_lt (rb.pos + 1) (show 0 < c by omega)
          omega
        rw [e1, Nat.mod_add_mod]
        have e2 : rb.pos + 1 + (c - 1) = rb.pos + c := by omega
        rw [e2, Nat.add_mod_right, Nat.mod_eq_of_lt h3]
      rw [harg]
      have : (rb.lines.set rb.pos w).getD rb.pos "" = w := by
        simp [List.getD_eq_getElem?_getD, List.getElem?_set_eq_of_lt w (h2 ▸ h3)]
      rw [this]

/-- Folding any write sequence into a fresh buffer keeps it well formed. -/
theorem RingBuffer.wf_fold (c : Nat) (hc : 0 < c) (ws : List String) :
    (ws.foldl RingBuffer.WriteString (NewRingBuffer c)).WF c := by
  induction ws using List.reverseRecOn with
  | nil => exact RingBuffer.wf_new c (by omega)
  | append_singleton ws w ih =>
    rw [List.foldl_append]
    exact RingBuffer.wf_write ih w

/-- After `k` writes the line count is `min k c`. -/
theorem RingBuffer.count_fold (c : Nat) (hc : 0 < c) (ws : List String) :
    (ws.foldl RingBuffer.WriteString (NewRingBuffer c)).count = min ws.length c := by
  induction ws using List.reverseRecOn with
  | nil => simp [NewRingBuffer]
  | append_singleton ws w ih =>
    have hwf := RingBuffer.wf_fold c hc ws
    obtain ⟨h1, h2, h3, h4⟩ := hwf
    rw [List.foldl_append]
    simp only [List.foldl_cons, List.foldl_nil, RingBuffer.WriteString, h1, ih]
    simp only [List.length_append, List.length_singleton]
    split <;> omega

/-- C8: for every capacity `c > 0` and every sequence of `k`
`write_line` calls, `all()` returns exactly the last `min(k, c)` written
lines in insertion order and `len()` returns `min(k, c)`. -/
theorem C8_ringBuffer (c : Nat) (hc : 0 < c) (ws : List String) :
    (ws.foldl RingBuffer.WriteString (NewRingBuffer c)).All =
      ws.drop (ws.length - min ws.length c) ∧
    (ws.foldl RingBuffer.WriteString (NewRingBuffer c)).Len = min ws.length c := by
  refine ⟨?_, RingBuffer.count_fold c hc ws⟩
  induction ws using List.reverseRecOn with
  | nil =>
    rw [List.foldl_nil, RingBuffer.all_eq (RingBuffer.wf_new c (by omega))]
    simp [NewRingBuffer]
  | append_singleton ws w ih =>
    have hwf := RingBuffer.wf_fold c hc ws
    have hcnt := RingBuffer.count_fold c hc ws
    rw [List.foldl_append, List.foldl_cons, List.foldl_nil,
      RingBuffer.all_write hc hwf w, ih]
    by_cases hfull : ws.length < c
    · rw [if_pos (by omega : (ws.foldl RingBuffer.WriteString (NewRingBuffer c)).count < c)]
      have e1 : ws.length - min ws.length c = 0 := by omega
      have e2 : (ws ++ [w]).length - min (ws ++ [w]).length c = 0 := by
        simp only [List.length_append, List.length_singleton]
        omega
      rw [e1, e2]
      simp
    · rw [if_neg (by omega : ¬(ws.foldl RingBuffer.WriteString (NewRingBuffer c)).count < c)]
      have e1 : ws.length - min ws.length c = ws.length - c := by omega
      have e2 : (ws ++ [w]).length - min (ws ++ [w]).length c = ws.length + 1 - c := by
        simp only [List.length_append, List.length_singleton]
        omega
      rw [e1, e2, List.tail_drop]
      rw [List.drop_append_of_le_length (by omega : ws.length + 1 - c ≤ ws.length)]
      congr 2
      omega

/-- Witness for C8: three writes into a capacity-2 buffer retain the
last two lines. -/
theorem C8_ringBuffer_witness :
    (["a", "b", "x"].foldl RingBuffer.WriteString (NewRingBuffer 2)).All =
      ["a", "b", "x"].drop (["a", "b", "x"].length - min ["a", "b", "x"].length 2) ∧
    (["a", "b", "x"].foldl RingBuffer.WriteString (NewRingBuffer 2)).Len =
      min ["a", "b", "x"].length 2 :=
  C8_ringBuffer 2 (by omega) ["a", "b", "x"]

/-! ## DFS walker correctness

The recursive walkers of `manager.go` compute exactly reachability: the
visited list extends its input, stays duplicate-free, and (with the fuel
supplied by `dfsFuel`) contains precisely the names reachable from the
initial worklist. -/

/-- The DFS only ever appends to the visited list. -/
theorem visitM_append (f : String → List String) (k : Nat) (req ls : List String) :
    ∃ l, visitM f k req ls = req ++ l := by
  induction k generalizing req ls with
  | zero => cases ls with
    | nil => exact ⟨[], by simp [visitM]⟩
    | cons n ns => exact ⟨[], by simp [visitM]⟩
  | succ k ih =>
    cases ls with
    | nil => exact ⟨[], by simp [visitM]⟩
    | cons n ns =>
      by_cases hmem : n ∈ req
      · obtain ⟨l, hl⟩ := ih req ns
        exact ⟨l, by simp only [visitM, if_pos hmem]; exact hl⟩
      · obtain ⟨l1, hl1⟩ := ih (req ++ [n]) (f n)
        obtain ⟨l2, hl2⟩ := ih (visitM f k (req ++ [n]) (f n)) ns
        refine ⟨[n] ++ l1 ++ l2, ?_⟩
        simp only [visitM, if_neg hmem]
        rw [hl2, hl1]
        simp

/-- A name already visited stays visited. -/
theorem visitM_mem_start (f : String → List String) (k : Nat) (req ls : List String)
    (x : String) (hx : x ∈ req) : x ∈ visitM f k req ls := by
  obtain ⟨l, hl⟩ := visitM_append f k req ls
  rw [hl]
  exact List.mem_append_left l hx

/-- Soundness: every freshly visited name is reachable from the
worklist along `f`-edges. -/
theorem visitM_subset (f : String → List String) (k : Nat) :
    ∀ req ls x, x ∈ visitM f k req ls →
      x ∈ req ∨ ∃ t ∈ ls, Relation.ReflTransGen (fun a b => b ∈ f a) t x := by
  induction k with
  | zero =>
    intro req ls x hx
    cases ls with
    | nil => simp only [visitM] at hx; exact .inl hx
    | cons n ns => simp only [visitM] at hx; exact .inl hx
  | succ k ih =>
    intro req ls x hx
    cases ls with
    | nil => simp only [visitM] at hx; exact .inl hx
    | cons n ns =>
      by_cases hmem : n ∈ req
      · simp only [visitM, if_pos hmem] at hx
        rcases ih req ns x hx with h | ⟨t, ht, h⟩
        · exact .inl h
        · exact .inr ⟨t, List.mem_cons_of_mem n ht, h⟩
      · simp only [visitM, if_neg hmem] at hx
        rcases ih (visitM f k (req ++ [n]) (f n)) ns x hx with h1 | ⟨t, ht, h⟩
        · rcases ih (req ++ [n]) (f n) x h1 with h2 | ⟨t, ht, h⟩
          · rcases List.mem_append.mp h2 with h3 | h3
            · exact .inl h3
            · exact .inr ⟨n, List.mem_cons_self n ns,
                (List.mem_singleton.mp h3) ▸ Relation.ReflTransGen.refl⟩
          · exact .inr ⟨n, List.mem_cons_self n ns, Relation.ReflTransGen.head ht h⟩
        · exact .inr ⟨t, List.mem_cons_of_mem n ht, h⟩

/-- The visited list stays duplicate-free. -/
theorem visitM_nodup (f : String → List String) (k : Nat) :
    ∀ req ls, req.Nodup → (visitM f k req ls).Nodup := by
  induction k with
  | zero =>
    intro req ls h
    cases ls with
    | nil => simpa [visitM] using h
    | cons n ns => simpa [visitM] using h
  | succ k ih =>
    intro req ls h
    cases ls with
    | nil => simpa [visitM] using h
    | cons n ns =>
      by_cases hmem : n ∈ req
      · simp only [visitM, if_pos hmem]
        exact ih req ns h
      · simp only [visitM, if_neg hmem]
        refine ih _ ns (ih (req ++ [n]) (f n) ?_)
        simp [List.nodup_append, h, hmem]

/-- With nothing visited, the DFS potential is the `dfsFuel` sum term. -/
theorem dfsPotential_nil (f : String → List String) (U : List String) :
    dfsPotential f U [] = (U.map (fun u => 1 + (f u).length)).sum := by
  simp [dfsPotential]

/-- Visiting more names never increases the remaining potential. -/
theorem dfsPotential_mono (f : String → List String) (U req req2 : List String)
    (h : ∀ x ∈ req, x ∈ req2) :
    dfsPotential f U req2 ≤ dfsPotential f U req := by
  refine List.Sublist.sum_le_sum ?_ (by simp)
  refine List.Sublist.map _ ?_
  refine List.monotone_filter_right U ?_
  intro a ha
  simp only [decide_eq_true_eq] at ha ⊢
  exact fun hr => ha (h a hr)

/-- Removing one occurrence of a name from a duplicate-free list splits
off its summand. -/
theorem sum_filter_ne (g : String → Nat) (n : String) :
    ∀ L : List String, L.Nodup → n ∈ L →
      ((L.filter (fun u => u ≠ n)).map g).sum + g n = (L.map g).sum := by
  intro L
  induction L with
  | nil => intro _ hn; cases hn
  | cons a L ih =>
    intro hL hn
    rcases List.mem_cons.mp hn with rfl | hmem
    · have hnot : n ∉ L := (List.nodup_cons.mp hL).1
      have hfl : L.filter (fun u => u ≠ n) = L := by
        refine List.filter_eq_self.mpr ?_
        intro x hx
        simp only [decide_eq_true_eq]
        exact fun h => hnot (h ▸ hx)
      simp only [List.filter_cons, decide_eq_true_eq]
      rw [if_neg (by simp)]
      rw [hfl]
      simp [Nat.add_comm]
    · have ha : (a ≠ n) := by
        rintro rfl
        exact (List.nodup_cons.mp hL).1 hmem
      simp only [List.filter_cons]
      rw [if_pos (by simp [ha])]
      simp only [List.map_cons, List.sum_cons]
      have := ih (List.nodup_cons.mp hL).2 hmem
      omega

/-- Visiting a fresh universe name frees exactly its potential summand. -/
theorem dfsPotential_insert (f : String → List String) (U req : List String) (n : String)
    (hU : U.Nodup) (hn : n ∈ U) (hreq : n ∉ req) :
    dfsPotential f U (req ++ [n]) + (1 + (f n).length) = dfsPotential f U req := by
  unfold dfsPotential
  have hfilter : U.filter (fun u => u ∉ req ++ [n])
      = (U.filter (fun u => u ∉ req)).filter (fun u => u ≠ n) := by
    rw [List.filter_filter]
    refine List.filter_congr ?_
    intro x _
    by_cases h1 : x ∈ req
    · simp [h1]
    · by_cases h2 : x = n
      · simp [h1, h2]
      · simp [h1, h2]
  rw [hfilter]
  refine sum_filter_ne (fun u => 1 + (f u).length) n (U.filter (fun u => u ∉ req))
    (hU.filter _) ?_
  simp [List.mem_filter, hn, hreq]

/-- Completeness: with `dfsPotential`-bounded fuel, the DFS visits its
whole worklist and the visited list is closed under `f`-edges at every
freshly visited name. -/
theorem visitM_complete (f : String → List String) (U : List String)
    (hU : U.Nodup) (hf : ∀ x, ∀ y ∈ f x, y ∈ U) :
    ∀ k req ls, (∀ x ∈ ls, x ∈ U) →
      ls.length + dfsPotential f U req ≤ k →
      (∀ t ∈ ls, t ∈ visitM f k req ls) ∧
      (∀ x, x ∈ visitM f k req ls → x ∉ req → ∀ y ∈ f x, y ∈ visitM f k req ls) := by
  intro k
  induction k with
  | zero =>
    intro req ls _ hbound
    have h0 : ls = [] := List.length_eq_zero.mp (by omega)
    subst h0
    refine ⟨fun t ht => absurd ht (List.not_mem_nil t), ?_⟩
    intro x hx hneg
    simp only [visitM] at hx
    exact absurd hx hneg
  | succ k ih =>
    intro req ls hls hbound
    cases ls with
    | nil =>
      refine ⟨fun t ht => absurd ht (List.not_mem_nil t), ?_⟩
      intro x hx hneg
      simp only [visitM] at hx
      exact absurd hx hneg
    | cons n ns =>
      have hnU : n ∈ U := hls n (List.mem_cons_self n ns)
      have hnsU : ∀ x ∈ ns, x ∈ U := fun x hx => hls x (List.mem_cons_of_mem n hx)
      have hb : ns.length + 1 + dfsPotential f U req ≤ k + 1 := by
        simpa [Nat.add_comm, Nat.add_assoc, Nat.add_left_comm] using hbound
      by_cases hmem : n ∈ req
      · have heq : visitM f (k + 1) req (n :: ns) = visitM f k req ns := by
          simp only [visitM, if_pos hmem]
        obtain ⟨H1, H2⟩ := ih req ns hnsU (by omega)
        rw [heq]
        refine ⟨?_, H2⟩
        intro t ht
        rcases List.mem_cons.mp ht with rfl | htns
        · exact visitM_mem_start f k req ns t hmem
        · exact H1 t htns
      · have hins := dfsPotential_insert f U req n hU hnU hmem
        have heq : visitM f (k + 1) req (n :: ns)
            = visitM f k (visitM f k (req ++ [n]) (f n)) ns := by
          simp only [visitM, if_neg hmem]
        have hfn : ∀ x ∈ f n, x ∈ U := fun x hx => hf n x hx
        have hbound1 : (f n).length + dfsPotential f U (req ++ [n]) ≤ k := by omega
        obtain ⟨I1, I2⟩ := ih (req ++ [n]) (f n) hfn hbound1
        have hsub1 : ∀ x ∈ req ++ [n], x ∈ visitM f k (req ++ [n]) (f n) :=
          fun x hx => visitM_mem_start f k (req ++ [n]) (f n) x hx
        have hbound2 : ns.length + dfsPotential f U (visitM f k (req ++ [n]) (f n)) ≤ k := by
          have hm : dfsPotential f U (visitM f k (req ++ [n]) (f n))
              ≤ dfsPotential f U (req ++ [n]) :=
            dfsPotential_mono f U (req ++ [n]) _ hsub1
          omega
        obtain ⟨O1, O2⟩ := ih (visitM f k (req ++ [n]) (f n)) ns hnsU hbound2
        rw [heq]
        constructor
        · intro t ht
          rcases List.mem_cons.mp ht with rfl | htns
          · exact visitM_mem_start f k _ ns t (hsub1 t (by simp))
          · exact O1 t htns
        · intro x hx hxreq y hy
          by_cases hxR1 : x ∈ visitM f k (req ++ [n]) (f n)
          · by_cases hx2 : x ∈ req ++ [n]
            · have hxn : x = n := by
                rcases List.mem_append.mp hx2 with h3 | h3
                · exact absurd h3 hxreq
                · exact List.mem_singleton.mp h3
              subst hxn
              exact visitM_mem_start f k _ ns y (I1 y hy)
            · exact visitM_mem_start f k _ ns y (I2 x hxR1 hx2 y hy)
          · exact O2 x hx hxR1 y hy

/-- Membership in the fully fuelled DFS is exactly reachability from
the worklist. -/
theorem visitM_closure_iff (f : String → List String) (U : List String)
    (hU : U.Nodup) (hf : ∀ x, ∀ y ∈ f x, y ∈ U)
    (ls : List String) (hls : ∀ x ∈ ls, x ∈ U) (x : String) :
    x ∈ visitM f (dfsFuel f U ls) [] ls ↔
      ∃ t ∈ ls, Relation.ReflTransGen (fun a b => b ∈ f a) t x := by
  have hbound : ls.length + dfsPotential f U [] ≤ dfsFuel f U ls := by
    rw [dfsPotential_nil]
    simp [dfsFuel]
  obtain ⟨H1, H2⟩ := visitM_complete f U hU hf (dfsFuel f U ls) [] ls hls hbound
  constructor
  · intro hx
    rcases visitM_subset f (dfsFuel f U ls) [] ls x hx with h | h
    · exact absurd h (List.not_mem_nil x)
    · exact h
  · rintro ⟨t, ht, hrtg⟩
    induction hrtg with
    | refl => exact H1 t ht
    | tail hstep hedge ihh =>
      exact H2 _ ihh (List.not_mem_nil _) _ hedge

/-! ## Graph adjacency facts and claim C9 -/

/-- Reverse-adjacency entries are catalog keys. -/
theorem radj_subset_nodes (cat : Catalog) (a b : String) :
    b ∈ radj cat a → b ∈ nodes cat := by
  induction cat with
  | nil => intro h; simp [radj] at h
  | cons p rest ih =>
    intro h
    simp only [radj, List.mem_append] at h
    rcases h with h1 | h1
    · rcases List.mem_map.mp h1 with ⟨c, _, rfl⟩
      simp [nodes]
    · simp only [nodes, List.map_cons, List.mem_cons]
      exact .inr (ih h1)

/-- Catalog keys appear among the catalog's mentioned names. -/
theorem nodes_subset_catNames (cat : Catalog) (n : String) :
    n ∈ nodes cat → n ∈ catNames cat := by
  intro h
  rcases List.mem_map.mp h with ⟨p, hp, rfl⟩
  refine List.mem_dedup.mpr (List.mem_flatMap.mpr ⟨p, hp, ?_⟩)
  simp

/-- Forward-adjacency entries appear among the catalog's mentioned
names. -/
theorem fwd_subset_catNames (cat : Catalog) (x y : String) :
    y ∈ fwd cat x → y ∈ catNames cat := by
  induction cat with
  | nil => intro h; simp [fwd] at h
  | cons p rest ih =>
    intro h
    simp only [fwd] at h
    by_cases hp : p.1 = x
    · rw [if_pos hp] at h
      refine List.mem_dedup.mpr (List.mem_flatMap.mpr ⟨p, List.mem_cons_self p rest, ?_⟩)
      simp [h]
    · rw [if_neg hp] at h
      have := List.mem_dedup.mp (ih h)
      refine List.mem_dedup.mpr ?_
      simp only [List.flatMap_cons, List.mem_append]
      exact .inr this

/-- `Dependents` computes exactly the transitive dependents: DFS
reachability over reverse edges. -/
theorem mem_Dependents_iff (cat : Catalog) (x y : String) :
    y ∈ Dependents cat x ↔ Relation.TransGen (RevEdge cat) x y := by
  unfold Dependents
  rw [visitM_closure_iff (radj cat) (catNames cat) (List.nodup_dedup _)
    (fun a b hb => nodes_subset_catNames cat b (radj_subset_nodes cat a b hb))
    (radj cat x)
    (fun z hz => nodes_subset_catNames cat z (radj_subset_nodes cat x z hz)) y]
  rw [Relation.TransGen.head'_iff]
  constructor
  · rintro ⟨t, ht, h⟩
    exact ⟨t, ht, h⟩
  · rintro ⟨t, ht, h⟩
    exact ⟨t, ht, h⟩

/-- `Dependencies` computes exactly the transitive dependencies: DFS
reachability over forward edges. -/
theorem mem_Dependencies_iff (cat : Catalog) (x y : String) :
    y ∈ Dependencies cat x ↔ Relation.TransGen (Edge cat) x y := by
  unfold Dependencies
  rw [visitM_closure_iff (fwd cat) (catNames cat) (List.nodup_dedup _)
    (fun a b hb => fwd_subset_catNames cat a b hb)
    (fwd cat x)
    (fun z hz => fwd_subset_catNames cat x z hz) y]
  rw [Relation.TransGen.head'_iff]
  constructor
  · rintro ⟨t, ht, h⟩
    exact ⟨t, ht, h⟩
  · rintro ⟨t, ht, h⟩
    exact ⟨t, ht, h⟩

/-- With unique catalog keys, the stored reverse adjacency is the exact
converse of the forward adjacency. -/
theorem mem_radj_iff (cat : Catalog) (a b : String) :
    (nodes cat).Nodup → (b ∈ radj cat a ↔ a ∈ fwd cat b) := by
  induction cat with
  | nil => intro _; simp [radj, fwd]
  | cons p rest ih =>
    intro hkeys
    obtain ⟨hp, hrest⟩ :=
      List.nodup_cons.mp (show (p.1 :: nodes rest).Nodup from hkeys)
    simp only [radj, List.mem_append]
    have hfirst : b ∈ (p.2.filter (fun d => d = a)).map (fun _ => p.1)
        ↔ (b = p.1 ∧ a ∈ p.2) := by
      constructor
      · intro h1
        rcases List.mem_map.mp h1 with ⟨c, hc, rfl⟩
        obtain ⟨hcp, hca⟩ := List.mem_filter.mp hc
        refine ⟨rfl, ?_⟩
        have : c = a := by simpa using hca
        exact this ▸ hcp
      · rintro ⟨rfl, ha⟩
        exact List.mem_map.mpr ⟨a, List.mem_filter.mpr ⟨ha, by simp⟩, rfl⟩
    rw [hfirst]
    show _ ↔ a ∈ fwd (p :: rest) b
    unfold fwd
    by_cases hpb : p.1 = b
    · rw [if_pos hpb]
      constructor
      · rintro (⟨_, ha⟩ | h1)
        · exact ha
        · exact absurd (hpb ▸ radj_subset_nodes rest a b h1) hp
      · intro ha
        exact .inl ⟨hpb.symm, ha⟩
    · rw [if_neg hpb]
      constructor
      · rintro (⟨hbp, _⟩ | h1)
        · exact absurd hbp.symm hpb
        · exact (ih hrest).mp h1
      · intro h1
        exact .inr ((ih hrest).mpr h1)

/-- C9: for every dependency graph built from a catalog (unique keys)
and all names `x`, `y`: `Dependents` and `Dependencies` are the
transitive closures under reverse and forward edges respectively, and
`y ∈ dependents(x)` exactly when `x ∈ dependencies(y)`. -/
theorem C9_dependents_dependencies (cat : Catalog) (hkeys : (nodes cat).Nodup)
    (x y : String) :
    (y ∈ Dependents cat x ↔ Relation.TransGen (RevEdge cat) x y) ∧
    (y ∈ Dependencies cat x ↔ Relation.TransGen (Edge cat) x y) ∧
    (y ∈ Dependents cat x ↔ x ∈ Dependencies cat y) := by
  have hrel : RevEdge cat = Function.swap (Edge cat) := by
    funext a b
    exact propext (mem_radj_iff cat a b hkeys)
  refine ⟨mem_Dependents_iff cat x y, mem_Dependencies_iff cat x y, ?_⟩
  rw [mem_Dependents_iff cat x y, mem_Dependencies_iff cat y x, hrel]
  exact Relation.transGen_swap

/-- Witness for C9 on the two-process catalog where `A` depends on `B`,
with `x = B`, `y = A`. -/
theorem C9_dependents_dependencies_witness :
    ("A" ∈ Dependents [("A", ["B"]), ("B", [])] "B" ↔
      Relation.TransGen (RevEdge [("A", ["B"]), ("B", [])]) "B" "A") ∧
    ("A" ∈ Dependencies [("A", ["B"]), ("B", [])] "B" ↔
      Relation.TransGen (Edge [("A", ["B"]), ("B", [])]) "B" "A") ∧
    ("A" ∈ Dependents [("A", ["B"]), ("B", [])] "B" ↔
      "B" ∈ Dependencies [("A", ["B"]), ("B", [])] "A") :=
  C9_dependents_dependencies [("A", ["B"]), ("B", [])] (by decide) "B" "A"

/-! ## Stop and restart protocols: claims C2 and C1 -/

/-- `stopSingle` touches no other process entry. -/
theorem stopSingleM_other (now : Nat) (s : StateMap) (n m : String) (h : m ≠ n) :
    stopSingleM now s n m = s m := by
  unfold stopSingleM
  split <;> simp [updS, h]

/-- `stopSingle` never leaves its own process Running, and never touches
the retry fields. -/
theorem stopSingleM_self (now : Nat) (s : StateMap) (n : String) :
    ((stopSingleM now s n) n).status ≠ .running ∧
    ((stopSingleM now s n) n).retryCount = (s n).retryCount ∧
    ((stopSingleM now s n) n).nextRetryAt = (s n).nextRetryAt := by
  unfold stopSingleM
  by_cases h : (s n).status = .retrying
  · simp [h, updS]
  · rw [if_neg h]
    simp only [updS, if_pos rfl]
    unfold MPStop
    by_cases h2 : (s n).status = .running ∨ (s n).status = .starting
    · simp [h2]
    · rw [if_neg h2]
      exact ⟨fun hr => h2 (.inl hr), rfl, rfl⟩

/-- A Running, Starting or Retrying process is Stopped by `stopSingle`. -/
theorem stopSingleM_triggered (now : Nat) (s : StateMap) (n : String)
    (h : stopTriggered (s n)) : ((stopSingleM now s n) n).status = .stopped := by
  unfold stopSingleM
  by_cases hr : (s n).status = .retrying
  · simp [hr, updS]
  · have h2 : (s n).status = .running ∨ (s n).status = .starting := by
      rcases h with h | h | h
      · exact .inl h
      · exact .inr h
      · exact absurd h hr
    rw [if_neg hr]
    simp [updS, MPStop, h2]

/-- `stopSingle` on a Stopped process changes nothing. -/
theorem stopSingleM_stopped (now : Nat) (s : StateMap) (n : String)
    (h : (s n).status = .stopped) : stopSingleM now s n n = s n := by
  unfold stopSingleM
  rw [if_neg (by simp [h])]
  simp [updS, MPStop, h]

/-- The walk over `Dependents` that never revisits a name. -/
theorem Dependents_nodup (cat : Catalog) (n : String) : (Dependents cat n).Nodup :=
  visitM_nodup (radj cat) _ [] (radj cat n) List.nodup_nil

/-- Behaviour of `StopProcess`'s dependent loop over a duplicate-free
dependent list: the trace records exactly the dependents that were
Running, Starting or Retrying at call time, in list order; those are now
Stopped; everything else is untouched. -/
theorem stopFold_spec (now : Nat) (deps : List String) :
    ∀ (s : StateMap) (tr : List String), deps.Nodup →
      (deps.foldl (stopStep now) (s, tr)).2
          = tr ++ deps.filter (fun dep => stopTriggered (s dep)) ∧
      (∀ m, m ∉ deps → (deps.foldl (stopStep now) (s, tr)).1 m = s m) ∧
      (∀ d ∈ deps, stopTriggered (s d) →
        ((deps.foldl (stopStep now) (s, tr)).1 d).status = .stopped) ∧
      (∀ d ∈ deps, ¬stopTriggered (s d) →
        (deps.foldl (stopStep now) (s, tr)).1 d = s d) := by
  induction deps with
  | nil => intro s tr _; simp
  | cons d ds ih =>
    intro s tr hnd
    obtain ⟨hd, hds⟩ := List.nodup_cons.mp hnd
    by_cases ht : stopTriggered (s d)
    · have hstep : stopStep now (s, tr) d = (stopSingleM now s d, tr ++ [d]) := by
        unfold stopStep
        rw [if_pos ht]
      rw [List.foldl_cons, hstep]
      obtain ⟨IH1, IH2, IH3, IH4⟩ := ih (stopSingleM now s d) (tr ++ [d]) hds
      have hsame : ∀ e ∈ ds, stopSingleM now s d e = s e :=
        fun e he => stopSingleM_other now s d e (fun hh => hd (hh ▸ he))
      refine ⟨?_, ?_, ?_, ?_⟩
      · rw [IH1]
        have hfc : ds.filter (fun dep => stopTriggered ((stopSingleM now s d) dep))
            = ds.filter (fun dep => stopTriggered (s dep)) :=
          List.filter_congr (fun e he => by rw [hsame e he])
        rw [hfc, List.filter_cons, if_pos (by simpa using ht)]
        simp
      · intro m hm
        have hm1 : m ∉ ds := fun hh => hm (List.mem_cons_of_mem d hh)
        have hm2 : m ≠ d := fun hh => hm (hh ▸ List.mem_cons_self d ds)
        rw [IH2 m hm1, stopSingleM_other now s d m hm2]
      · intro e he hte
        rcases List.mem_cons.mp he with rfl | hein
        · rw [IH2 e hd]
          exact stopSingleM_triggered now s e ht
        · refine IH3 e hein ?_
          rw [hsame e hein]
          exact hte
      · intro e he hte
        rcases List.mem_cons.mp he with rfl | hein
        · exact absurd ht hte
        · have h2 : ¬ stopTriggered ((stopSingleM now s d) e) := by
            rw [hsame e hein]
            exact hte
          rw [IH4 e hein h2, hsame e hein]
    · have hstep : stopStep now (s, tr) d = (s, tr) := by
        unfold stopStep
        rw [if_neg ht]
      rw [List.foldl_cons, hstep]
      obtain ⟨IH1, IH2, IH3, IH4⟩ := ih s tr hds
      refine ⟨?_, ?_, ?_, ?_⟩
      · rw [IH1, List.filter_cons, if_neg (by simpa using ht)]
      · intro m hm
        exact IH2 m (fun hh => hm (List.mem_cons_of_mem d hh))
      · intro e he hte
        rcases List.mem_cons.mp he with rfl | hein
        · exact absurd hte ht
        · exact IH3 e hein hte
      · intro e he hte
        rcases List.mem_cons.mp he with rfl | hein
        · exact IH2 e hd
        · exact IH4 e hein hte

/-- C2 (amended): `stop_process(n)` stops every transitive dependent
currently Running, Starting or Retrying strictly before stopping the
target, but among the dependents the stop order is the DFS preorder of
the reverse-dependency walk (`Dependents`), which visits a dependent
before the processes that depend on it — not reverse-topological order.
The stop trace is exactly the active dependents in `Dependents` order
followed by the target, every traced dependent ends Stopped, and the
target (when it was Running, Starting or Retrying) ends Stopped. -/
theorem C2_stopProcess (cat : Catalog) (now : Nat) (s : StateMap) (n : String) :
    (StopProcessM cat now s n).2
        = (Dependents cat n).filter (fun dep => stopTriggered (s dep)) ++ [n] ∧
    (∀ d ∈ Dependents cat n, stopTriggered (s d) →
      d ∈ ((StopProcessM cat now s n).2).dropLast ∧
      ((StopProcessM cat now s n).1 d).status = .stopped) ∧
    ((StopProcessM cat now s n).2).getLast? = some n ∧
    (stopTriggered (s n) → ((StopProcessM cat now s n).1 n).status = .stopped) := by
  obtain ⟨F1, F2, F3, F4⟩ :=
    stopFold_spec now (Dependents cat n) s [] (Dependents_nodup cat n)
  have htr : (StopProcessM cat now s n).2
      = (Dependents cat n).filter (fun dep => stopTriggered (s dep)) ++ [n] := by
    show ((Dependents cat n).foldl (stopStep now) (s, [])).2 ++ [n] = _
    rw [F1]
    simp
  refine ⟨htr, ?_, ?_, ?_⟩
  · intro d hd htd
    constructor
    · rw [htr, List.dropLast_concat]
      exact List.mem_filter.mpr ⟨hd, by simpa using htd⟩
    · show ((stopSingleM now ((Dependents cat n).foldl (stopStep now) (s, [])).1 n) d).status
        = .stopped
      by_cases hdn : d = n
      · rw [hdn]
        have hstopped : (((Dependents cat n).foldl (stopStep now) (s, [])).1 n).status
            = .stopped := F3 n (hdn ▸ hd) (hdn ▸ htd)
        rw [stopSingleM_stopped now _ n hstopped]
        exact hstopped
      · rw [stopSingleM_other now _ n d hdn]
        exact F3 d hd htd
  · rw [htr]
    exact List.getLast?_concat _
  · intro htn
    show ((stopSingleM now ((Dependents cat n).foldl (stopStep now) (s, [])).1 n) n).status
      = .stopped
    by_cases hdn : n ∈ Dependents cat n
    · have hstopped : (((Dependents cat n).foldl (stopStep now) (s, [])).1 n).status
          = .stopped := F3 n hdn htn
      rw [stopSingleM_stopped now _ n hstopped]
      exact hstopped
    · refine stopSingleM_triggered now _ n ?_
      rw [F2 n hdn]
      exact htn

/-- Witness for the amended C2 on the Running linear chain
`A ← B ← C`. -/
theorem C2_stopProcess_witness :
    (StopProcessM [("A", []), ("B", ["A"]), ("C", ["B"])] 10
        (fun m => ProcessState.mk m .running 1 0 0 0 0 "" 0) "A").2
        = (Dependents [("A", []), ("B", ["A"]), ("C", ["B"])] "A").filter
            (fun dep =>
              stopTriggered ((fun m => ProcessState.mk m .running 1 0 0 0 0 "" 0) dep)) ++
          ["A"] ∧
    (∀ d ∈ Dependents [("A", []), ("B", ["A"]), ("C", ["B"])] "A",
      stopTriggered ((fun m => ProcessState.mk m .running 1 0 0 0 0 "" 0) d) →
      d ∈ ((StopProcessM [("A", []), ("B", ["A"]), ("C", ["B"])] 10
          (fun m => ProcessState.mk m .running 1 0 0 0 0 "" 0) "A").2).dropLast ∧
      ((StopProcessM [("A", []), ("B", ["A"]), ("C", ["B"])] 10
          (fun m => ProcessState.mk m .running 1 0 0 0 0 "" 0) "A").1 d).status = .stopped) ∧
    ((StopProcessM [("A", []), ("B", ["A"]), ("C", ["B"])] 10
        (fun m => ProcessState.mk m .running 1 0 0 0 0 "" 0) "A").2).getLast? = some "A" ∧
    (stopTriggered ((fun m => ProcessState.mk m .running 1 0 0 0 0 "" 0) "A") →
      ((StopProcessM [("A", []), ("B", ["A"]), ("C", ["B"])] 10
          (fun m => ProcessState.mk m .running 1 0 0 0 0 "" 0) "A").1 "A").status = .stopped) :=
  C2_stopProcess [("A", []), ("B", ["A"]), ("C", ["B"])] 10
    (fun m => ProcessState.mk m .running 1 0 0 0 0 "" 0) "A"

/-- C2 counterexample: on the all-Running linear chain
(`B` depends on `A`, `C` depends on `B`), `stop_process("A")` issues the
stops in the order `B`, `C`, `A` — not the claimed reverse-topological
`C`, `B`, `A`. -/
theorem C2_stop_order_cex :
    (StopProcessM [("A", []), ("B", ["A"]), ("C", ["B"])] 10
        (fun m => ProcessState.mk m .running 1 0 0 0 0 "" 0) "A").2 = ["B", "C", "A"] ∧
    (StopProcessM [("A", []), ("B", ["A"]), ("C", ["B"])] 10
        (fun m => ProcessState.mk m .running 1 0 0 0 0 "" 0) "A").2 ≠ ["C", "B", "A"] := by
  refine ⟨?_, ?_⟩ <;> decide

/-- A successful `ManagedProcess.Start` through the manager's
`startSingle`: the process entry becomes Running with fresh session
fields, and nothing else changes. -/
theorem startSingleM_success (spawn : String → Bool) (now : Nat) (pid : String → Nat)
    (s : StateMap) (n : String) (hspawn : spawn n = true)
    (hst : (s n).status ≠ .running) :
    startSingleM spawn now pid s n
      = (updS s n
          { s n with
            status := .running
            pid := pid n
            startedAt := now
            stoppedAt := 0
            lastError := ""
            exitCode := 0 }, none) := by
  unfold startSingleM MPStart
  rw [hspawn]
  simp [hst]

/-- `RestartProcess`'s dependent loop leaves every name outside the
snapshot untouched. -/
theorem restartFold_other (spawn : String → Bool) (now : Nat) (pid : String → Nat)
    (L : List String) :
    ∀ (s : StateMap) (m : String), m ∉ L →
      (L.foldl (restartStep spawn now pid) s) m = s m := by
  induction L with
  | nil => intro s m _; rfl
  | cons d ds ih =>
    intro s m hm
    have hmd : m ≠ d := fun hh => hm (hh ▸ List.mem_cons_self d ds)
    rw [List.foldl_cons, ih _ m (fun hh => hm (List.mem_cons_of_mem d hh))]
    unfold restartStep startSingleM
    simp [updS, hmd]

/-- C1 (amended): whenever the target neither transitively depends on
itself nor fails to spawn, `restart_process` completes successfully and
leaves the target Running — but with its `retry_count` and
`next_retry_at` unchanged from before the call.  Only the restarted
dependents have their retry counters reset; the target's counter is
never reset by `RestartProcess`. -/
theorem C1_restartProcess (cat : Catalog) (spawn : String → Bool) (now : Nat)
    (pid : String → Nat) (s : StateMap) (n : String)
    (hdep : n ∉ Dependents cat n) (hspawn : spawn n = true) :
    (RestartProcessM cat spawn now pid s n).2 = none ∧
    ((RestartProcessM cat spawn now pid s n).1 n).status = .running ∧
    ((RestartProcessM cat spawn now pid s n).1 n).retryCount = (s n).retryCount ∧
    ((RestartProcessM cat spawn now pid s n).1 n).nextRetryAt = (s n).nextRetryAt := by
  obtain ⟨F1, F2, F3, F4⟩ :=
    stopFold_spec now (Dependents cat n) s [] (Dependents_nodup cat n)
  obtain ⟨G1, G2, G3⟩ :=
    stopSingleM_self now ((Dependents cat n).foldl (stopStep now) (s, [])).1 n
  have hs1n0 : (((Dependents cat n).foldl (stopStep now) (s, [])).1) n = s n := F2 n hdep
  have hs1 : (StopProcessM cat now s n).1
      = stopSingleM now ((Dependents cat n).foldl (stopStep now) (s, [])).1 n := rfl
  have hretry : ((StopProcessM cat now s n).1 n).retryCount = (s n).retryCount := by
    rw [hs1, G2, hs1n0]
  have hnext : ((StopProcessM cat now s n).1 n).nextRetryAt = (s n).nextRetryAt := by
    rw [hs1, G3, hs1n0]
  have hnr : ((StopProcessM cat now s n).1 n).status ≠ .running := by
    rw [hs1]
    exact G1
  have hss := startSingleM_success spawn now pid (StopProcessM cat now s n).1 n hspawn hnr
  have hnfilter : n ∉ (Dependents cat n).filter
      (fun dep =>
        (s dep).status = .running ∨ (s dep).status = .starting ∨
        (s dep).status = .failed ∨ (s dep).status = .retrying) :=
    fun hh => hdep (List.mem_of_mem_filter hh)
  have hre : RestartProcessM cat spawn now pid s n
      = (((Dependents cat n).filter
            (fun dep =>
              (s dep).status = .running ∨ (s dep).status = .starting ∨
              (s dep).status = .failed ∨ (s dep).status = .retrying)).foldl
          (restartStep spawn now pid)
          (updS (StopProcessM cat now s n).1 n
            { (StopProcessM cat now s n).1 n with
              status := .running
              pid := pid n
              startedAt := now
              stoppedAt := 0
              lastError := ""
              exitCode := 0 }), none) := by
    simp only [RestartProcessM]
    rw [hss]
  have hre2 : (RestartProcessM cat spawn now pid s n).2 = none := by rw [hre]
  have hre1 : (RestartProcessM cat spawn now pid s n).1
      = ((Dependents cat n).filter
            (fun dep =>
              (s dep).status = .running ∨ (s dep).status = .starting ∨
              (s dep).status = .failed ∨ (s dep).status = .retrying)).foldl
          (restartStep spawn now pid)
          (updS (StopProcessM cat now s n).1 n
            { (StopProcessM cat now s n).1 n with
              status := .running
              pid := pid n
              startedAt := now
              stoppedAt := 0
              lastError := ""
              exitCode := 0 }) := by rw [hre]
  refine ⟨hre2, ?_, ?_, ?_⟩ <;>
    rw [hre1, restartFold_other spawn now pid _ _ n hnfilter] <;>
    simp [updS, hretry, hnext]

/-- Witness for the amended C1: a single Retrying process with
`retry_count = 2` restarts successfully into Running with
`retry_count` still 2. -/
theorem C1_restartProcess_witness :
    (RestartProcessM [("A", [])] (fun _ => true) 10 (fun _ => 7)
        (fun m => ProcessState.mk m .retrying 0 0 0 2 99 "" 1) "A").2 = none ∧
    ((RestartProcessM [("A", [])] (fun _ => true) 10 (fun _ => 7)
        (fun m => ProcessState.mk m .retrying 0 0 0 2 99 "" 1) "A").1 "A").status = .running ∧
    ((RestartProcessM [("A", [])] (fun _ => true) 10 (fun _ => 7)
        (fun m => ProcessState.mk m .retrying 0 0 0 2 99 "" 1) "A").1 "A").retryCount =
      ((fun m => ProcessState.mk m .retrying 0 0 0 2 99 "" 1) "A").retryCount ∧
    ((RestartProcessM [("A", [])] (fun _ => true) 10 (fun _ => 7)
        (fun m => ProcessState.mk m .retrying 0 0 0 2 99 "" 1) "A").1 "A").nextRetryAt =
      ((fun m => ProcessState.mk m .retrying 0 0 0 2 99 "" 1) "A").nextRetryAt :=
  C1_restartProcess [("A", [])] (fun _ => true) 10 (fun _ => 7)
    (fun m => ProcessState.mk m .retrying 0 0 0 2 99 "" 1) "A" (by decide) rfl

/-- C1 counterexample: `restart_process("A")` on a Retrying process with
`retry_count = 2` (no dependents) completes successfully and leaves
`A` Running — with `retry_count` still 2, not 0: `RestartProcess` resets
the counters of restarted dependents only, never the target's. -/
theorem C1_restart_retryCount_cex :
    (RestartProcessM [("A", [])] (fun _ => true) 10 (fun _ => 7)
        (fun m => ProcessState.mk m .retrying 0 0 0 2 99 "" 1) "A").2 = none ∧
    ((RestartProcessM [("A", [])] (fun _ => true) 10 (fun _ => 7)
        (fun m => ProcessState.mk m .retrying 0 0 0 2 99 "" 1) "A").1 "A").status = .running ∧
    ((RestartProcessM [("A", [])] (fun _ => true) 10 (fun _ => 7)
        (fun m => ProcessState.mk m .retrying 0 0 0 2 99 "" 1) "A").1 "A").retryCount = 2 ∧
    ((RestartProcessM [("A", [])] (fun _ => true) 10 (fun _ => 7)
        (fun m => ProcessState.mk m .retrying 0 0 0 2 99 "" 1) "A").1 "A").retryCount ≠ 0 := by
  refine ⟨?_, ?_, ?_, ?_⟩ <;> decide

/-! ## Kahn's algorithm in `StartOrder`: claims C3 and C7 -/

theorem updI_self (f : String → Int) (x : String) (v : Int) : updI f x v x = v := by
  simp [updI]

theorem updI_other (f : String → Int) (x : String) (v : Int) (y : String) (h : y ≠ x) :
    updI f x v y = f y := by
  simp [updI, h]

/-- With unique keys, occurrences of `y` in `reverse[a]` match the
occurrences of `a` in `forward[y]`. -/
theorem count_radj (cat : Catalog) (a y : String) :
    (nodes cat).Nodup → (radj cat a).count y = (fwd cat y).count a := by
  induction cat with
  | nil => intro _; simp [radj, fwd]
  | cons p rest ih =>
    intro hkeys
    obtain ⟨hp, hrest⟩ :=
      List.nodup_cons.mp (show (p.1 :: nodes rest).Nodup from hkeys)
    show ((p.2.filter (fun d => d = a)).map (fun _ => p.1) ++ radj rest a).count y
      = (if p.1 = y then p.2 else fwd rest y).count a
    rw [List.count_append, List.map_const', List.count_replicate]
    by_cases hpy : p.1 = y
    · rw [if_pos (show (p.1 == y) = true from by simp [hpy]), if_pos hpy]
      have hzero : (radj rest a).count y = 0 := by
        rw [List.count_eq_zero]
        intro hmem
        exact hp (hpy ▸ radj_subset_nodes rest a y hmem)
      have hfc : p.2.filter (fun d => d = a) = p.2.filter (fun d => d == a) :=
        List.filter_congr (fun d _ => by
          by_cases h : d = a
          · simp [h]
          · simp [h])
      rw [hzero, hfc, ← List.countP_eq_length_filter]
      rfl
    · rw [if_neg (show ¬(p.1 == y) = true from by simp [hpy]), if_neg hpy]
      rw [Nat.zero_add]
      exact ih hrest

/-- Splitting a not-yet-emitted degree count at one newly emitted name:
the occurrences of `node` separate out. -/
theorem filter_length_split (R order : List String) (node : String)
    (hnR : node ∈ R) (hnO : node ∉ order) (l : List String) :
    (l.filter (fun d => d ∈ R ∧ d ∉ order)).length
      = (l.filter (fun d => d ∈ R ∧ d ∉ order ++ [node])).length + l.count node := by
  induction l with
  | nil => simp
  | cons d tl ih =>
    by_cases hdn : d = node
    · subst hdn
      rw [List.filter_cons, List.filter_cons, List.count_cons_self,
        if_pos (by simp [hnR, hnO]), if_neg (by simp)]
      simp only [List.length_cons]
      omega
    · have hcnt : (d :: tl).count node = tl.count node :=
        List.count_cons_of_ne (fun hh => hdn hh.symm) tl
      rw [List.filter_cons, List.filter_cons, hcnt]
      by_cases hd : d ∈ R ∧ d ∉ order
      · have hd2 : d ∈ R ∧ d ∉ order ++ [node] :=
          ⟨hd.1, by simp [List.mem_append, hd.2, hdn]⟩
        rw [if_pos (by simpa using hd), if_pos (by simpa using hd2)]
        simp only [List.length_cons]
        omega
      · have hd2 : ¬(d ∈ R ∧ d ∉ order ++ [node]) := fun hh =>
          hd ⟨hh.1, fun hm => hh.2 (by simp [List.mem_append, hm])⟩
        rw [if_neg (by simpa using hd), if_neg (by simpa using hd2)]
        exact ih

/-- Decomposing an order extended by one name around an arbitrary
member. -/
theorem append_singleton_cases {l : List String} {a : String} {pre : List String}
    {x : String} {suf : List String} (h : l ++ [a] = pre ++ x :: suf) :
    (pre = l ∧ x = a ∧ suf = []) ∨ ∃ s2, l = pre ++ x :: s2 := by
  rcases suf.eq_nil_or_concat with rfl | ⟨s2, b, rfl⟩
  · left
    have h2 := List.append_inj' h (by simp)
    exact ⟨h2.1.symm, by simpa using h2.2.symm, rfl⟩
  · right
    rw [List.concat_eq_append] at h
    have h3 : l ++ [a] = (pre ++ x :: s2) ++ [b] := by
      rw [h]
      simp
    have h4 := List.append_inj' h3 (by simp)
    exact ⟨s2, h4.1⟩

/-- A finite set in which every element has a successor contains a
cycle. -/
theorem exists_transGen_self (r : String → String → Prop) (S : Finset String)
    (hne : S.Nonempty) (hsucc : ∀ a ∈ S, ∃ b ∈ S, r a b) :
    ∃ a, Relation.TransGen r a a := by
  classical
  have hsub : ∀ a : {x // x ∈ S}, ∃ b : {x // x ∈ S}, r a.1 b.1 := by
    rintro ⟨a, ha⟩
    obtain ⟨b, hb, hr⟩ := hsucc a ha
    exact ⟨⟨b, hb⟩, hr⟩
  choose g hg using hsub
  obtain ⟨a0, ha0⟩ := hne
  have hchain : ∀ k (x : {x // x ∈ S}), Relation.TransGen r x.1 ((g^[k + 1]) x).1 := by
    intro k
    induction k with
    | zero =>
      intro x
      simpa using Relation.TransGen.single (hg x)
    | succ k ih =>
      intro x
      rw [Function.iterate_succ_apply' g (k + 1) x]
      exact (ih x).tail (hg _)
  have key : ∀ i j : ℕ, i < j → g^[i] ⟨a0, ha0⟩ = g^[j] ⟨a0, ha0⟩ →
      ∃ a, Relation.TransGen r a a := by
    intro i j hij heq
    have h2 : g^[j] ⟨a0, ha0⟩ = g^[j - i] (g^[i] ⟨a0, ha0⟩) := by
      rw [← Function.iterate_add_apply]
      congr 1
      omega
    have h3 := hchain (j - i - 1) (g^[i] ⟨a0, ha0⟩)
    rw [show j - i - 1 + 1 = j - i from by omega, ← h2, ← heq] at h3
    exact ⟨(g^[i] ⟨a0, ha0⟩).1, h3⟩
  obtain ⟨i, j, hne2, heq⟩ :=
    Finite.exists_ne_map_eq_of_infinite (fun k : ℕ => g^[k] ⟨a0, ha0⟩)
  rcases lt_or_gt_of_ne hne2 with hij | hij
  · exact key i j hij heq
  · exact key j i hij heq.symm

/-- One step of the reverse-adjacency walk inside Kahn's loop. -/
theorem kahnStep_cons (R : List String) (deg : String → Int) (queue : List String)
    (d : String) (L : List String) :
    kahnStep R (deg, queue) (d :: L)
      = kahnStep R
          (if d ∈ R then
            (updI deg d (deg d - 1), if deg d - 1 = 0 then queue ++ [d] else queue)
          else (deg, queue)) L := by
  by_cases hd : d ∈ R
  · simp [kahnStep, hd]
  · simp [kahnStep, hd]

/-- Processing a popped node's reverse adjacency: degrees drop to their
value relative to the extended order, and the queue ends up holding
exactly the unemitted zero-degree names.  `B2 y` is the target degree of
`y` (relative to `order ++ [node]`); the count hypothesis says the
current degree still includes the unprocessed occurrences. -/
theorem kahnFold_spec (R order : List String) (node : String) (B2 : String → Int)
    (hB2nn : ∀ y ∈ R, 0 ≤ B2 y) :
    ∀ (L : List String) (deg1 : String → Int) (queue1 : List String),
      (∀ y ∈ L, y ∈ R → y ∉ order ∧ y ≠ node) →
      queue1.Nodup →
      (∀ y ∈ queue1, y ∈ R ∧ y ∉ order ∧ y ≠ node) →
      (∀ y ∈ R, deg1 y = B2 y + ((L.filter (fun x => x ∈ R)).count y : Int)) →
      (∀ y, y ∈ queue1 ↔ (y ∈ R ∧ y ∉ order ∧ y ≠ node ∧ deg1 y = 0)) →
      (∀ y ∈ R, (kahnStep R (deg1, queue1) L).1 y = B2 y) ∧
      ((kahnStep R (deg1, queue1) L).2).Nodup ∧
      (∀ y ∈ (kahnStep R (deg1, queue1) L).2, y ∈ R ∧ y ∉ order ∧ y ≠ node) ∧
      (∀ y, y ∈ (kahnStep R (deg1, queue1) L).2 ↔
        (y ∈ R ∧ y ∉ order ∧ y ≠ node ∧ (kahnStep R (deg1, queue1) L).1 y = 0)) := by
  intro L
  induction L with
  | nil =>
    intro deg1 queue1 _ hq1 hq2 hdeg hqiff
    refine ⟨fun y hy => by simpa using hdeg y hy, hq1, hq2, hqiff⟩
  | cons d L ih =>
    intro deg1 queue1 hL hq1 hq2 hdeg hqiff
    have hLtail : ∀ y ∈ L, y ∈ R → y ∉ order ∧ y ≠ node :=
      fun y hy => hL y (List.mem_cons_of_mem d hy)
    by_cases hd : d ∈ R
    · rw [kahnStep_cons, if_pos hd]
      have hdno := hL d (List.mem_cons_self d L) hd
      have hdegd := hdeg d hd
      have hcount_d : ((d :: L).filter (fun x => x ∈ R)).count d
          = (L.filter (fun x => x ∈ R)).count d + 1 := by
        rw [List.filter_cons, if_pos (by simpa using hd), List.count_cons_self]
      have hdeg2 : ∀ y ∈ R,
          updI deg1 d (deg1 d - 1) y
            = B2 y + ((L.filter (fun x => x ∈ R)).count y : Int) := by
        intro y hy
        by_cases hyd : y = d
        · subst hyd
          rw [updI_self, hdegd, hcount_d]
          push_cast
          ring
        · rw [updI_other _ _ _ _ hyd, hdeg y hy]
          have hc : ((d :: L).filter (fun x => x ∈ R)).count y
              = (L.filter (fun x => x ∈ R)).count y := by
            rw [List.filter_cons, if_pos (by simpa using hd)]
            exact List.count_cons_of_ne hyd _
          rw [hc]
      have hdnotq : d ∉ queue1 := by
        intro hdq
        have h0 := ((hqiff d).mp hdq).2.2.2
        have hb := hB2nn d hd
        have hdegd2 := hdeg d hd
        rw [hcount_d] at hdegd2
        push_cast at hdegd2
        omega
      by_cases hz : deg1 d - 1 = 0
      · rw [if_pos hz]
        refine ih (updI deg1 d (deg1 d - 1)) (queue1 ++ [d]) hLtail ?_ ?_ hdeg2 ?_
        · simp [List.nodup_append, hq1, hdnotq]
        · intro y hy
          rcases List.mem_append.mp hy with h | h
          · exact hq2 y h
          · rw [List.mem_singleton.mp h]
            exact ⟨hd, hdno.1, hdno.2⟩
        · intro y
          constructor
          · intro hy
            rcases List.mem_append.mp hy with h | h
            · have h0 := (hqiff y).mp h
              have hyd : y ≠ d := fun hh => hdnotq (hh ▸ h)
              exact ⟨h0.1, h0.2.1, h0.2.2.1,
                by rw [updI_other _ _ _ _ hyd]; exact h0.2.2.2⟩
            · rw [List.mem_singleton.mp h]
              exact ⟨hd, hdno.1, hdno.2, by rw [updI_self]; exact hz⟩
          · rintro ⟨hyR, hyO, hyN, hy0⟩
            by_cases hyd : y = d
            · subst hyd
              exact List.mem_append.mpr (.inr (by simp))
            · rw [updI_other _ _ _ _ hyd] at hy0
              exact List.mem_append.mpr (.inl ((hqiff y).mpr ⟨hyR, hyO, hyN, hy0⟩))
      · rw [if_neg hz]
        refine ih (updI deg1 d (deg1 d - 1)) queue1 hLtail hq1 hq2 hdeg2 ?_
        intro y
        constructor
        · intro hy
          have h0 := (hqiff y).mp hy
          have hyd : y ≠ d := fun hh => hdnotq (hh ▸ hy)
          exact ⟨h0.1, h0.2.1, h0.2.2.1,
            by rw [updI_other _ _ _ _ hyd]; exact h0.2.2.2⟩
        · rintro ⟨hyR, hyO, hyN, hy0⟩
          by_cases hyd : y = d
          · subst hyd
            rw [updI_self] at hy0
            exact absurd hy0 hz
          · rw [updI_other _ _ _ _ hyd] at hy0
            exact (hqiff y).mpr ⟨hyR, hyO, hyN, hy0⟩
    · rw [kahnStep_cons, if_neg hd]
      refine ih deg1 queue1 hLtail hq1 hq2 ?_ hqiff
      intro y hy
      rw [hdeg y hy]
      have hc : ((d :: L).filter (fun x => x ∈ R)).count y
          = (L.filter (fun x => x ∈ R)).count y := by
        rw [List.filter_cons, if_neg (by simpa using hd)]
      rw [hc]

/-- Popping the queue head and processing its reverse adjacency
re-establishes the Kahn invariant with the node emitted. -/
theorem kahn_step_inv (cat : Catalog) (R : List String)
    (hkeys : (nodes cat).Nodup) (hacyc : Acyclic cat)
    (deg : String → Int) (node : String) (rest order : List String)
    (hinv : KahnInv cat R deg (node :: rest) order) :
    KahnInv cat R (kahnStep R (deg, rest) (radj cat node)).1
      (kahnStep R (deg, rest) (radj cat node)).2 (order ++ [node]) := by
  obtain ⟨hnd, hordR, hqR, hdeg, hqiff, htopo⟩ := hinv
  obtain ⟨hnodeR, hnodeO, hnode0⟩ := (hqiff node).mp (List.mem_cons_self node rest)
  rw [List.nodup_append] at hnd
  obtain ⟨hordnd, hqnd, hdisj⟩ := hnd
  obtain ⟨hnodeNotRest, hrestnd⟩ := List.nodup_cons.mp hqnd
  have hnodeps : ∀ d ∈ fwd cat node, d ∈ R → d ∈ order := by
    intro d hdmem hdR
    have h0 := hdeg node hnodeR
    rw [hnode0] at h0
    have hlen : ((fwd cat node).filter (fun d => d ∈ R ∧ d ∉ order)).length = 0 := by
      exact_mod_cast h0.symm
    have hempty := List.length_eq_zero.mp hlen
    by_contra hdO
    have hdf : d ∈ (fwd cat node).filter (fun d => d ∈ R ∧ d ∉ order) :=
      List.mem_filter.mpr ⟨hdmem, by simp [hdR, hdO]⟩
    rw [hempty] at hdf
    exact absurd hdf (List.not_mem_nil d)
  have hL : ∀ y ∈ radj cat node, y ∈ R → y ∉ order ∧ y ≠ node := by
    intro y hy hyR
    have hedge : node ∈ fwd cat y := (mem_radj_iff cat node y hkeys).mp hy
    constructor
    · intro hyO
      obtain ⟨pre, suf, hps⟩ := List.append_of_mem hyO
      have hmem := htopo pre y suf hps node hedge hnodeR
      exact hnodeO (by rw [hps]; exact List.mem_append.mpr (.inl hmem))
    · rintro rfl
      exact hacyc y (Relation.TransGen.single hedge)
  set B2 : String → Int := fun y =>
    (((fwd cat y).filter (fun d => d ∈ R ∧ d ∉ order ++ [node])).length : Int)
    with hB2def
  have hB2nn : ∀ y ∈ R, 0 ≤ B2 y := by
    intro y _
    simp only [hB2def]
    exact Int.natCast_nonneg _
  have hdeg1 : ∀ y ∈ R,
      deg y = B2 y + (((radj cat node).filter (fun x => x ∈ R)).count y : Int) := by
    intro y hy
    rw [hdeg y hy]
    simp only [hB2def]
    have hsplit := filter_length_split R order node hnodeR hnodeO (fwd cat y)
    have hcy : ((radj cat node).filter (fun x => x ∈ R)).count y
        = (fwd cat y).count node := by
      rw [List.count_filter (by simpa using hy), count_radj cat node y hkeys]
    rw [hcy]
    exact_mod_cast hsplit
  have hrestR : ∀ y ∈ rest, y ∈ R ∧ y ∉ order ∧ y ≠ node := by
    intro y hy
    have h0 := (hqiff y).mp (List.mem_cons_of_mem node hy)
    exact ⟨h0.1, h0.2.1, fun hh => hnodeNotRest (hh ▸ hy)⟩
  have hrestiff : ∀ y, y ∈ rest ↔ (y ∈ R ∧ y ∉ order ∧ y ≠ node ∧ deg y = 0) := by
    intro y
    constructor
    · intro hy
      obtain ⟨h1, h2, h3⟩ := hrestR y hy
      exact ⟨h1, h2, h3, ((hqiff y).mp (List.mem_cons_of_mem node hy)).2.2⟩
    · rintro ⟨h1, h2, h3, h4⟩
      have hmem := (hqiff y).mpr ⟨h1, h2, h4⟩
      rcases List.mem_cons.mp hmem with hh | hh
      · exact absurd hh h3
      · exact hh
  obtain ⟨K1, K2, K3, K4⟩ :=
    kahnFold_spec R order node B2 hB2nn (radj cat node) deg rest hL hrestnd hrestR
      hdeg1 hrestiff
  refine ⟨?_, ?_, ?_, ?_, ?_, ?_⟩
  · rw [List.nodup_append]
    refine ⟨?_, K2, ?_⟩
    · rw [List.nodup_append]
      refine ⟨hordnd, List.nodup_singleton node, ?_⟩
      intro a ha hb
      rw [List.mem_singleton] at hb
      exact hnodeO (hb ▸ ha)
    · intro a ha hb
      obtain ⟨h1, h2, h3⟩ := K3 a hb
      rcases List.mem_append.mp ha with h | h
      · exact h2 h
      · exact h3 (List.mem_singleton.mp h)
  · intro m hm
    rcases List.mem_append.mp hm with h | h
    · exact hordR m h
    · exact (List.mem_singleton.mp h) ▸ hnodeR
  · intro m hm
    exact (K3 m hm).1
  · intro m hm
    rw [K1 m hm]
  · intro m
    rw [K4 m]
    constructor
    · rintro ⟨h1, h2, h3, h4⟩
      refine ⟨h1, ?_, h4⟩
      intro hmo
      rcases List.mem_append.mp hmo with h | h
      · exact h2 h
      · exact h3 (List.mem_singleton.mp h)
    · rintro ⟨h1, h2, h4⟩
      exact ⟨h1, fun hh => h2 (List.mem_append.mpr (.inl hh)),
        fun hh => h2 (List.mem_append.mpr (.inr (List.mem_singleton.mpr hh))), h4⟩
  · intro pre x suf hps d hd hdR
    rcases append_singleton_cases hps with ⟨rfl, rfl, rfl⟩ | ⟨s2, hs2⟩
    · exact hnodeps d hd hdR
    · exact htopo pre x s2 hs2 d hd hdR

/-- Kahn's main loop, run with enough fuel from an invariant state:
the result extends the emitted order, is duplicate-free within `R`,
satisfies the topological property, and any `R`-name it misses has an
unemitted `R`-dependency (the seed of a cycle). -/
theorem kahnLoop_spec (cat : Catalog) (R : List String)
    (hkeys : (nodes cat).Nodup) (hacyc : Acyclic cat) :
    ∀ (fuel : Nat) (deg : String → Int) (queue order : List String),
      KahnInv cat R deg queue order →
      R.length + 1 ≤ fuel + order.length →
      (∃ l, kahnLoop cat R fuel deg queue order = order ++ l) ∧
      (kahnLoop cat R fuel deg queue order).Nodup ∧
      (∀ m ∈ kahnLoop cat R fuel deg queue order, m ∈ R) ∧
      (∀ pre x suf, kahnLoop cat R fuel deg queue order = pre ++ x :: suf →
        ∀ d ∈ fwd cat x, d ∈ R → d ∈ pre) ∧
      (∀ m ∈ R, m ∉ kahnLoop cat R fuel deg queue order →
        ∃ d ∈ fwd cat m, d ∈ R ∧ d ∉ kahnLoop cat R fuel deg queue order) := by
  intro fuel
  induction fuel with
  | zero =>
    intro deg queue order hinv hbound
    obtain ⟨hnd, hordR, _, _, _, _⟩ := hinv
    rw [List.nodup_append] at hnd
    have hsub : List.Subperm order R :=
      List.subperm_of_subset hnd.1 (fun x hx => hordR x hx)
    have := hsub.length_le
    omega
  | succ fuel ih =>
    intro deg queue order hinv hbound
    cases queue with
    | nil =>
      have heq : kahnLoop cat R (fuel + 1) deg [] order = order := rfl
      rw [heq]
      obtain ⟨hnd, hordR, hqR, hdeg, hqiff, htopo⟩ := hinv
      rw [List.nodup_append] at hnd
      refine ⟨⟨[], by simp⟩, hnd.1, hordR, htopo, ?_⟩
      intro m hmR hmO
      have hdnz : deg m ≠ 0 := by
        intro h0
        have hmem := (hqiff m).mpr ⟨hmR, hmO, h0⟩
        exact absurd hmem (List.not_mem_nil m)
      have hdm := hdeg m hmR
      have hne : (fwd cat m).filter (fun d => d ∈ R ∧ d ∉ order) ≠ [] := by
        intro hempty
        rw [hempty] at hdm
        simp at hdm
        exact hdnz hdm
      obtain ⟨d, hd⟩ := List.exists_mem_of_ne_nil _ hne
      obtain ⟨hd1, hd2⟩ := List.mem_filter.mp hd
      simp only [decide_eq_true_eq] at hd2
      exact ⟨d, hd1, hd2.1, hd2.2⟩
    | cons node rest =>
      have heq : kahnLoop cat R (fuel + 1) deg (node :: rest) order
          = kahnLoop cat R fuel (kahnStep R (deg, rest) (radj cat node)).1
              (kahnStep R (deg, rest) (radj cat node)).2 (order ++ [node]) := rfl
      rw [heq]
      have hinv2 := kahn_step_inv cat R hkeys hacyc deg node rest order hinv
      have hbound2 : R.length + 1 ≤ fuel + (order ++ [node]).length := by
        rw [List.length_append, List.length_singleton]
        omega
      obtain ⟨⟨l, hl⟩, c2, c3, c4, c5⟩ := ih _ _ _ hinv2 hbound2
      refine ⟨⟨node :: l, by rw [hl]; simp⟩, c2, c3, c4, c5⟩

/-- On an acyclic graph with known targets, `StartOrder` succeeds with a
duplicate-free topological order of the forward closure of the
targets. -/
theorem StartOrder_ok (cat : Catalog) (targets : List String)
    (hkeys : (nodes cat).Nodup) (hacyc : Acyclic cat)
    (hknown : ∀ t ∈ targets, t ∈ nodes cat) :
    ∃ order, StartOrder cat targets = .ok order ∧
      order.Nodup ∧
      (∀ x, x ∈ order ↔ InClosure cat targets x) ∧
      (∀ pre x suf, order = pre ++ x :: suf →
        ∀ d, Relation.TransGen (Edge cat) x d → d ∈ order → d ∈ pre) := by
  classical
  have hmem_iff : ∀ x, x ∈ collectRequired cat targets ↔ InClosure cat targets x := by
    intro x
    unfold collectRequired
    rw [visitM_closure_iff (fwd cat) (catNames cat) (List.nodup_dedup _)
      (fun a b hb => fwd_subset_catNames cat a b hb) targets
      (fun t ht => nodes_subset_catNames cat t (hknown t ht)) x]
    exact Iff.rfl
  have hRnd : (collectRequired cat targets).Nodup :=
    visitM_nodup _ _ [] _ List.nodup_nil
  have hso : StartOrder cat targets
      = (if (kahnLoop cat (collectRequired cat targets)
              (2 * (collectRequired cat targets).length + 1)
              (inDeg0 cat (collectRequired cat targets))
              ((collectRequired cat targets).filter
                (fun n => inDeg0 cat (collectRequired cat targets) n = 0)) []).length
            = (collectRequired cat targets).length
        then Except.ok (kahnLoop cat (collectRequired cat targets)
              (2 * (collectRequired cat targets).length + 1)
              (inDeg0 cat (collectRequired cat targets))
              ((collectRequired cat targets).filter
                (fun n => inDeg0 cat (collectRequired cat targets) n = 0)) [])
        else Except.error "dependency cycle detected") := by
    have hfind : targets.find? (fun t => !(t ∈ nodes cat : Bool)) = none := by
      rw [List.find?_eq_none]
      intro x hx
      simp [hknown x hx]
    simp only [StartOrder]
    rw [hfind]
  set R := collectRequired cat targets with hRdef
  have hinv0 : KahnInv cat R (inDeg0 cat R)
      (R.filter (fun n => inDeg0 cat R n = 0)) [] := by
    refine ⟨?_, ?_, ?_, ?_, ?_, ?_⟩
    · simpa using hRnd.filter _
    · intro m hm
      exact absurd hm (List.not_mem_nil m)
    · intro m hm
      exact (List.mem_filter.mp hm).1
    · intro m _
      unfold inDeg0
      have hfc : (fwd cat m).filter (fun d => d ∈ R)
          = (fwd cat m).filter (fun d => d ∈ R ∧ d ∉ ([] : List String)) :=
        List.filter_congr (fun d _ => by simp)
      rw [hfc]
    · intro m
      rw [List.mem_filter]
      constructor
      · rintro ⟨h1, h2⟩
        exact ⟨h1, List.not_mem_nil m, by simpa using h2⟩
      · rintro ⟨h1, _, h2⟩
        exact ⟨h1, by simpa using h2⟩
    · intro pre x suf h
      exact absurd h (by simp)
  have hbound : R.length + 1 ≤ (2 * R.length + 1) + ([] : List String).length := by
    simp
    omega
  obtain ⟨⟨l, hres⟩, hresnd, hressub, htopoD, hcomp⟩ :=
    kahnLoop_spec cat R hkeys hacyc (2 * R.length + 1) (inDeg0 cat R)
      (R.filter (fun n => inDeg0 cat R n = 0)) [] hinv0 hbound
  set res := kahnLoop cat R (2 * R.length + 1) (inDeg0 cat R)
    (R.filter (fun n => inDeg0 cat R n = 0)) [] with hresdef
  have hRsub : ∀ m ∈ R, m ∈ res := by
    by_contra hcon
    push_neg at hcon
    obtain ⟨m0, hm0R, hm0res⟩ := hcon
    have hS : ∀ a ∈ (R.filter (fun m => m ∉ res)).toFinset,
        ∃ b ∈ (R.filter (fun m => m ∉ res)).toFinset, Edge cat a b := by
      intro a ha
      rw [List.mem_toFinset, List.mem_filter] at ha
      obtain ⟨haR, hares⟩ := ha
      simp only [decide_eq_true_eq] at hares
      obtain ⟨d, hd1, hd2, hd3⟩ := hcomp a haR hares
      refine ⟨d, ?_, hd1⟩
      rw [List.mem_toFinset, List.mem_filter]
      exact ⟨hd2, by simpa using hd3⟩
    have hne : (R.filter (fun m => m ∉ res)).toFinset.Nonempty := by
      refine ⟨m0, ?_⟩
      rw [List.mem_toFinset, List.mem_filter]
      exact ⟨hm0R, by simpa using hm0res⟩
    obtain ⟨a, hcyc⟩ := exists_transGen_self (Edge cat) _ hne hS
    exact hacyc a hcyc
  have hlen : res.length = R.length := by
    have h1 : List.Subperm res R :=
      List.subperm_of_subset hresnd (fun x hx => hressub x hx)
    have h2 : List.Subperm R res :=
      List.subperm_of_subset hRnd (fun x hx => hRsub x hx)
    have hl1 := h1.length_le
    have hl2 := h2.length_le
    omega
  refine ⟨res, ?_, hresnd, ?_, ?_⟩
  · rw [hso, if_pos hlen]
  · intro x
    constructor
    · intro hx
      exact (hmem_iff x).mp (hressub x hx)
    · intro hx
      exact hRsub x ((hmem_iff x).mpr hx)
  · have hreach : ∀ x c, x ∈ R → Relation.TransGen (Edge cat) x c → c ∈ R := by
      intro x c hx htg
      obtain ⟨t, ht, hrtg⟩ := (hmem_iff x).mp hx
      exact (hmem_iff c).mpr ⟨t, ht, hrtg.trans htg.to_reflTransGen⟩
    intro pre x suf hps d htg hdres
    have hxres : x ∈ res := by
      rw [hps]
      exact List.mem_append.mpr (.inr (List.mem_cons_self x suf))
    have hxR : x ∈ R := hressub x hxres
    revert hdres
    induction htg with
    | single hedge =>
      intro hdres
      exact htopoD pre x suf hps _ hedge (hressub _ hdres)
    | @tail b c htg2 hedge ihh =>
      intro hdres
      have hbR : b ∈ R := hreach x b hxR htg2
      have hbres : b ∈ res := hRsub b hbR
      have hbpre : b ∈ pre := ihh hbres
      obtain ⟨p1, p2, hp12⟩ := List.append_of_mem hbpre
      have hres2 : res = p1 ++ b :: (p2 ++ x :: suf) := by
        rw [hps, hp12]
        simp
      have hd2 : c ∈ p1 := htopoD p1 b (p2 ++ x :: suf) hres2 c hedge (hressub c hdres)
      rw [hp12]
      exact List.mem_append.mpr (.inl hd2)

/-- C3: for every dependency graph (unique keys), if some target is
unknown then `start_order` fails; and on an acyclic graph with known
targets it returns a duplicate-free permutation of the forward closure
of the targets in which every emitted name is preceded by each of its
(transitive) dependencies that lie in the closure. -/
theorem C3_StartOrder (cat : Catalog) (targets : List String)
    (hkeys : (nodes cat).Nodup) :
    ((∃ t ∈ targets, t ∉ nodes cat) → ∃ e, StartOrder cat targets = .error e) ∧
    (Acyclic cat → (∀ t ∈ targets, t ∈ nodes cat) →
      ∃ order, StartOrder cat targets = .ok order ∧
        order.Nodup ∧
        (∀ x, x ∈ order ↔ InClosure cat targets x) ∧
        (∀ pre x suf, order = pre ++ x :: suf →
          ∀ d, Relation.TransGen (Edge cat) x d → d ∈ order → d ∈ pre)) := by
  constructor
  · rintro ⟨t, ht, htn⟩
    cases hf : targets.find? (fun t => !(t ∈ nodes cat : Bool)) with
    | none =>
      exfalso
      rw [List.find?_eq_none] at hf
      have := hf t ht
      simp at this
      exact htn this
    | some u =>
      refine ⟨"unknown process: " ++ u, ?_⟩
      simp only [StartOrder]
      rw [hf]
  · intro hacyc hknown
    exact StartOrder_ok cat targets hkeys hacyc hknown

/-- Witness for C3 on the linear chain where `A` depends on `B` and `B`
depends on `C`, with target `A` (the repo's own unit-test case). -/
theorem C3_StartOrder_witness :
    ((∃ t ∈ ["A"], t ∉ nodes [("A", ["B"]), ("B", ["C"]), ("C", [])]) →
      ∃ e, StartOrder [("A", ["B"]), ("B", ["C"]), ("C", [])] ["A"] = .error e) ∧
    (Acyclic [("A", ["B"]), ("B", ["C"]), ("C", [])] →
      (∀ t ∈ ["A"], t ∈ nodes [("A", ["B"]), ("B", ["C"]), ("C", [])]) →
      ∃ order, StartOrder [("A", ["B"]), ("B", ["C"]), ("C", [])] ["A"] = .ok order ∧
        order.Nodup ∧
        (∀ x, x ∈ order ↔ InClosure [("A", ["B"]), ("B", ["C"]), ("C", [])] ["A"] x) ∧
        (∀ pre x suf, order = pre ++ x :: suf →
          ∀ d, Relation.TransGen (Edge [("A", ["B"]), ("B", ["C"]), ("C", [])]) x d →
            d ∈ order → d ∈ pre)) :=
  C3_StartOrder [("A", ["B"]), ("B", ["C"]), ("C", [])] ["A"] (by decide)

/-- C7: whenever `start_order` succeeds, `stop_order` succeeds on the
same targets and returns exactly the reversed list. -/
theorem C7_StopOrder (cat : Catalog) (targets order : List String)
    (h : StartOrder cat targets = .ok order) :
    StopOrder cat targets = .ok order.reverse := by
  unfold StopOrder
  rw [h]

/-- Witness for C7 on the linear chain: the start order `C, B, A`
reverses to the stop order `A, B, C`. -/
theorem C7_StopOrder_witness :
    StopOrder [("A", ["B"]), ("B", ["C"]), ("C", [])] ["A"]
      = .ok (["C", "B", "A"].reverse) :=
  C7_StopOrder [("A", ["B"]), ("B", ["C"]), ("C", [])] ["A"] ["C", "B", "A"] rfl

end Shepherd
